import Mathlib

/-!
# Verification of `dir_tree_builder.py`

A shallow embedding, in Lean 4, of the directory-tree builder
(`src/dir_tree_builder.py`) together with proofs about its behaviour.

Embedding conventions:

* The filesystem is modelled by the inductive type `FSEntry`: each node records
  the observations the Python code's system calls will make on it
  (`exists()`, `stat()`, `iterdir()`), including failure outcomes, so that
  error-handling paths of the source are faithfully represented.
* Python exceptions escaping a function are modelled by `Except PyErr`;
  exceptions that the source catches are modelled by the corresponding
  `match` on the observation result.
* The module logger is modelled by returning the list of emitted messages
  (`LogMsg`, with their levels) alongside each result, in emission order.
* Python `float` arithmetic appears only in `human_readable_size` (divisions
  by `1024.0`) and in `st_mtime` values.  Division of an IEEE-754 double by
  `1024.0` is exact (it only shifts the exponent), so the running value in
  `human_readable_size` is exactly `size / 1024 ^ k`; it is represented here
  by the pair (numerator, denominator).  The `int -> float` conversion of the
  original byte count is exact for sizes below `2 ^ 53`, which covers every
  unit boundary tested by the code.  Timestamps are modelled at integral
  seconds (`Int`); no claim computes with the timestamp value itself.
* `datetime.fromtimestamp(..).strftime(..)` depends on the local time zone,
  an environment input; it is kept abstract as an explicit parameter
  `fmtTime : Int → String` threaded through the definitions.
-/

/-! ## `human_readable_size` (source lines 111-119)

The source divides a running float by `1024.0` up to four times.  The value
after `k` divisions is exactly `size / 1024 ^ k` (see the header note), here
carried as the pair `(num, den)` with `den = 1024 ^ k`.
-/

/-- Round `num / den` (with `den > 0`) to the nearest integer, ties to even:
the rounding CPython's float formatting applies to the exact value of the
double being printed. -/
def roundHalfEven (num den : Nat) : Nat :=
  let q := num / den
  let r := num % den
  if 2 * r < den then q
  else if den < 2 * r then q + 1
  else if q % 2 = 0 then q else q + 1

/-- The text Python's `f"{v:.1f}"` produces for the nonnegative exact value
`v = num / den`: `v` rounded to one decimal place, ties to even. -/
def fmt1 (num den : Nat) : String :=
  let t := roundHalfEven (10 * num) den
  toString (t / 10) ++ "." ++ toString (t % 10)

/-- The `for unit in ["KB", "MB", "GB", "TB"]` loop of `human_readable_size`
(source lines 115-118): divide by 1024 (tracked exactly as `den := den *
1024`), return at the first unit whose scaled value is below 1024, and on
falling out of the loop label the *current* value (divided only four times)
with `"PB"` (source line 119). -/
def hrsLoop : List String → Nat → Nat → String
  | [], num, den => fmt1 num den ++ " PB"
  | u :: rest, num, den =>
      let den := den * 1024
      if num < 1024 * den then fmt1 num den ++ " " ++ u
      else hrsLoop rest num den

/-- `human_readable_size` (source lines 111-119). -/
def human_readable_size (size_bytes : Nat) : String :=
  if size_bytes < 1024 then toString size_bytes ++ " B"
  else hrsLoop ["KB", "MB", "GB", "TB"] size_bytes 1

/-- Modelled from the spec's words (§4.1): "size is rendered using binary
(1024-based) units with one decimal place above 1 KB, selecting the largest
unit in the ordered sequence {B, KB, MB, GB, TB, PB} such that the scaled
value is < 1024, falling back to PB for larger values" — so a size shown in
unit `1024 ^ k` is the size divided by `1024 ^ k`, for `PB` included. -/
def spec_human_readable_size (n : Nat) : String :=
  if n < 1024 then toString n ++ " B"
  else if n < 1024 ^ 2 then fmt1 n (1024 ^ 1) ++ " KB"
  else if n < 1024 ^ 3 then fmt1 n (1024 ^ 2) ++ " MB"
  else if n < 1024 ^ 4 then fmt1 n (1024 ^ 3) ++ " GB"
  else if n < 1024 ^ 5 then fmt1 n (1024 ^ 4) ++ " TB"
  else fmt1 n (1024 ^ 5) ++ " PB"

/-- What the code actually renders: as `spec_human_readable_size`, except
that a size of 1 PB or more is shown as its TB-scaled value (`n / 1024 ^ 4`)
with the label `PB`, because the loop body never performs a fifth division. -/
def code_human_readable_size (n : Nat) : String :=
  if n < 1024 then toString n ++ " B"
  else if n < 1024 ^ 2 then fmt1 n (1024 ^ 1) ++ " KB"
  else if n < 1024 ^ 3 then fmt1 n (1024 ^ 2) ++ " MB"
  else if n < 1024 ^ 4 then fmt1 n (1024 ^ 3) ++ " GB"
  else if n < 1024 ^ 5 then fmt1 n (1024 ^ 4) ++ " TB"
  else fmt1 n (1024 ^ 4) ++ " PB"

theorem human_readable_size_eq_code (n : Nat) :
    human_readable_size n = code_human_readable_size n := by
  simp only [human_readable_size, code_human_readable_size, hrsLoop]
  norm_num
  split_ifs <;> first
    | rfl
    | (rw [String.append_assoc]; congr 1)

/-- C1 (counterexample): at exactly 1 PB the code renders `"1024.0 PB"` —
the TB-scaled value with the PB label — while rendering the size in the
selected binary unit, as the claim describes, would give `"1.0 PB"`. -/
theorem c1_pb_counterexample :
    human_readable_size (1024 ^ 5) = "1024.0 PB" ∧
    spec_human_readable_size (1024 ^ 5) = "1.0 PB" ∧
    human_readable_size (1024 ^ 5) ≠ spec_human_readable_size (1024 ^ 5) := by
  refine ⟨by decide, by decide, by decide⟩

/-- C1 (amended): `human_readable_size` selects the largest unit in
{B, KB, MB, GB, TB} whose scaled value is below 1024 and renders the scaled
value with one decimal place above 1 KB; it falls back to the label PB for
sizes of 1 PB and above, but the number it prints there is the TB-scaled
value `n / 1024 ^ 4` (the loop never divides a fifth time).  Below 1 PB this
agrees with the spec's rendering; in particular 2048 bytes render as
`"2.0 KB"`. -/
theorem c1_human_readable_size_amended :
    (∀ n : Nat, human_readable_size n = code_human_readable_size n) ∧
    (∀ n : Nat, n < 1024 ^ 5 → human_readable_size n = spec_human_readable_size n) ∧
    human_readable_size 2048 = "2.0 KB" := by
  refine ⟨human_readable_size_eq_code, ?_, by decide⟩
  intro n h
  rw [human_readable_size_eq_code]
  unfold code_human_readable_size spec_human_readable_size
  split_ifs <;> rfl

/-- C1 (witness): the amended theorem applied at the concrete size 2048. -/
theorem c1_human_readable_size_amended_witness :
    2048 < 1024 ^ 5 ∧ human_readable_size 2048 = spec_human_readable_size 2048 :=
  ⟨by norm_num, c1_human_readable_size_amended.2.1 2048 (by norm_num)⟩

/-! ## The data model

`JVal` is a JSON-serialisable Python value as this program produces them:
`int` (raw sizes), `float` (raw `st_mtime`, modelled at integral seconds),
`str` (names and human-readable renderings), and insertion-ordered `dict`.

The Python code builds plain nested dicts (`DirTree = Dict[str,
Union[FileMetadata, "DirTree"]]`, source lines 35-44).  `Node` is that union
with the originating branch recorded: `fileNode` for a dict built by
`get_file_info`, `dirNode` for a dict built by the directory recursion.
Erasing the tag (`Node.toVal`) yields exactly the runtime dict value.
-/

inductive JVal where
  | jint (n : Nat)
  | jfloat (t : Int)
  | jstr (s : String)
  | jdict (entries : List (String × JVal))
deriving Repr

inductive Node where
  | fileNode (meta : List (String × JVal))
  | dirNode (children : List (String × Node))
deriving Repr

mutual

/-- Erase the file/directory tag: the plain Python dict value. -/
def Node.toVal : Node → JVal
  | .fileNode meta => .jdict meta
  | .dirNode children => .jdict (nodeListToVal children)

def nodeListToVal : List (String × Node) → List (String × JVal)
  | [] => []
  | (k, n) :: rest => (k, n.toVal) :: nodeListToVal rest

end

/-- The result of `stat()` on an entry: the two fields this program reads.
`st_mtime` is modelled at integral seconds (see the header note on floats). -/
structure FileStat where
  st_size : Nat
  st_mtime : Int
deriving Repr, DecidableEq

/-- Which kind of `OSError` a failing system call raises.  The code treats
`PermissionError` specially (source line 254 catches only it), so the model
distinguishes it from every other `OSError`. -/
inductive OSErrKind where
  | permission
  | other
deriving Repr, DecidableEq

/-- A filesystem entry as observed by the traversal.  Each constructor fixes
the answers the system calls made on this entry will give:

* the constructor itself is the answer to `is_file()` / `is_dir()` at the
  moment the entry is dispatched on (`special` covers everything for which
  both return `False`: sockets, device files, broken symlinks, and entries
  already gone by then);
* `existsNow` is the answer to the `exists()` checks performed *inside* a
  call receiving this entry — `false` models an entry that vanished between
  its parent's type check and that call (race with the filesystem);
* `stat` / `listing` are the outcomes of `stat()` / `iterdir()`. -/
inductive FSEntry where
  | file (existsNow : Bool) (stat : Except OSErrKind FileStat)
  | dir (existsNow : Bool) (listing : Except OSErrKind (List (String × FSEntry)))
  | special (existsNow : Bool)
deriving Repr

def FSEntry.existsNow : FSEntry → Bool
  | .file ex _ => ex
  | .dir ex _ => ex
  | .special ex => ex

def FSEntry.isSpecial : FSEntry → Bool
  | .special _ => true
  | _ => false

def FSEntry.isFile : FSEntry → Bool
  | .file _ _ => true
  | _ => false

def FSEntry.isDir : FSEntry → Bool
  | .dir _ _ => true
  | _ => false

/-- A message sent to the logger, with its level.  Only the two levels this
program emits during traversal are modelled. -/
inductive LogLevel where
  | warning
  | debug
deriving Repr, DecidableEq

structure LogMsg where
  level : LogLevel
  msg : String
deriving Repr, DecidableEq

/-- A Python exception escaping a call.  `fileNotFound` is
`FileNotFoundError`, `osErr` any other `OSError` raised by a system call
(including `NotADirectoryError`); exception texts raised by the runtime
itself are summarised, and apostrophes in the source's own messages are
dropped. -/
inductive PyErr where
  | typeErr (msg : String)
  | valueErr (msg : String)
  | fileNotFound (msg : String)
  | osErr (msg : String)
deriving Repr, DecidableEq

/-! ## Sorting the listing (source line 253)

`sorted(path.iterdir(), key=lambda p: p.name.lower())` sorts the children
stably by their lower-cased name.  Any stable sort agrees with Python's
Timsort here, so the model uses insertion sort.  `Char.toLower` lower-cases
ASCII letters, a faithful model of `str.lower()` on ASCII names. -/

/-- The sort key of a child: its name, lower-cased, as a character list. -/
def lowerKey (s : String) : List Char := s.data.map Char.toLower

/-- Lexicographic comparison of character lists by code point — Python's
`<=` on strings. -/
def charListLe : List Char → List Char → Bool
  | [], _ => true
  | _ :: _, [] => false
  | a :: as, b :: bs =>
      if a.toNat < b.toNat then true
      else if b.toNat < a.toNat then false
      else charListLe as bs

/-- Key comparison between two listing entries. -/
def entryLe (a b : String × FSEntry) : Bool := charListLe (lowerKey a.1) (lowerKey b.1)

def insertSorted (x : String × FSEntry) : List (String × FSEntry) → List (String × FSEntry)
  | [] => [x]
  | y :: rest => if entryLe x y then x :: y :: rest else y :: insertSorted x rest

/-- Stable sort of a directory listing by lower-cased name. -/
def sortEntries : List (String × FSEntry) → List (String × FSEntry)
  | [] => []
  | x :: rest => insertSorted x (sortEntries rest)

theorem sizeOf_insertSorted (x : String × FSEntry) (l : List (String × FSEntry)) :
    sizeOf (insertSorted x l) = 1 + sizeOf x + sizeOf l := by
  induction l with
  | nil => simp [insertSorted]
  | cons y rest ih =>
    simp only [insertSorted]
    split <;> simp_arith [ih]

theorem sizeOf_sortEntries (l : List (String × FSEntry)) :
    sizeOf (sortEntries l) = sizeOf l := by
  induction l with
  | nil => rfl
  | cons x rest ih =>
    simp only [sortEntries, sizeOf_insertSorted, ih, List.cons.sizeOf_spec]

/-! ## `get_file_info` (source lines 129-175) -/

/-- `get_file_info`.  Inputs: the observations made on the path (`existsNow`
for the `exists()` check of line 164, `stat` for the `stat()` call of line
169) plus the rendering flag; `fmtTime` abstracts `human_readable_time`
(local-time formatting, an environment input).  Returns the metadata dict
(as an ordered association list) and the log messages emitted, in order.
The `except (OSError, PermissionError)` of line 173 is the `.error` branch
of the match; the exception text interpolated into the source's message is
elided. -/
def get_file_info (fmtTime : Int → String) (pathStr : String) (existsNow : Bool)
    (stat : Except OSErrKind FileStat) (human_readable : Bool) :
    List (String × JVal) × List LogMsg :=
  if !existsNow then
    ([], [⟨.warning, "File does not exist: " ++ pathStr⟩])
  else
    match stat with
    | .ok st =>
        ([("size", if human_readable then .jstr (human_readable_size st.st_size)
                   else .jint st.st_size),
          ("modified_time", if human_readable then .jstr (fmtTime st.st_mtime)
                            else .jfloat st.st_mtime)],
         [])
    | .error _ => ([], [⟨.warning, "Cannot access file info for: " ++ pathStr⟩])

/-! ## `get_dir_tree` (source lines 177-269)

`name` is `path.name` (the base name used as the key at line 246), `pathStr`
the full path rendered into messages; a child's path is `pathStr ++ "/" ++
childName`, as `pathlib`'s `/` produces on POSIX.  The checks appear in
source order: depth validation (line 229; its type check, and the
`human_readable`/`logger` type checks, concern Python dynamic typing and are
modelled separately by `get_dir_tree_checked`), the `exists()` check (line
238), the file base case (line 245), the depth-0 base case (line 249), the
listing with only `PermissionError` caught (lines 252-256) — any other
`OSError` from `iterdir()`, and any exception out of a recursive call,
propagates — and finally the loop over the sorted children (lines 258-267).
`tree[entry.name] = subtree or {}` (line 263) stores a dict equal to
`subtree` in every case, so it is modelled as storing the subtree. -/
mutual

def get_dir_tree (fmtTime : Int → String) (name pathStr : String) (e : FSEntry)
    (depth : Int) (human_readable : Bool) : Except PyErr Node × List LogMsg :=
  if depth < -1 then
    (.error (.valueErr ("depth must be -1 (unlimited) or >=0, got " ++ toString depth)), [])
  else if !e.existsNow then
    (.error (.fileNotFound ("Path does not exist: " ++ pathStr)), [])
  else
    match e with
    | .file ex st =>
        let r := get_file_info fmtTime pathStr ex st human_readable
        (.ok (.dirNode [(name, .fileNode r.1)]), r.2)
    | .dir _ listing =>
        if depth = 0 then (.ok (.dirNode []), [])
        else
          match listing with
          | .error .permission =>
              (.ok (.dirNode []), [⟨.warning, "Permission denied: " ++ pathStr⟩])
          | .error .other =>
              (.error (.osErr ("OSError while listing: " ++ pathStr)), [])
          | .ok entries =>
              match buildChildren fmtTime pathStr depth human_readable (sortEntries entries) with
              | (.error err, logs) => (.error err, logs)
              | (.ok ch, logs) => (.ok (.dirNode ch), logs)
    | .special _ =>
        if depth = 0 then (.ok (.dirNode []), [])
        else (.error (.osErr ("Not a directory: " ++ pathStr)), [])
termination_by sizeOf e
decreasing_by
  simp only [sizeOf_sortEntries, FSEntry.dir.sizeOf_spec, Except.ok.sizeOf_spec]
  omega

/-- The `for entry in entries` loop (source lines 258-267) over the already
sorted children, threading the partial tree and the emitted messages; an
exception from a recursive call aborts the loop and propagates, keeping the
messages emitted so far. -/
def buildChildren (fmtTime : Int → String) (pathStr : String) (depth : Int)
    (human_readable : Bool) :
    List (String × FSEntry) → Except PyErr (List (String × Node)) × List LogMsg
  | [] => (.ok [], [])
  | (cname, ce) :: rest =>
    let childPath := pathStr ++ "/" ++ cname
    match ce with
    | .dir dEx dListing =>
        match get_dir_tree fmtTime cname childPath (.dir dEx dListing)
            (if depth > 0 then depth - 1 else -1) human_readable with
        | (.error err, logs) => (.error err, logs)
        | (.ok sub, logs) =>
            match buildChildren fmtTime pathStr depth human_readable rest with
            | (.error err, logs2) => (.error err, logs ++ logs2)
            | (.ok chRest, logs2) => (.ok ((cname, sub) :: chRest), logs ++ logs2)
    | .file fEx fStat =>
        let r := get_file_info fmtTime childPath fEx fStat human_readable
        match buildChildren fmtTime pathStr depth human_readable rest with
        | (.error err, logs2) => (.error err, r.2 ++ logs2)
        | (.ok chRest, logs2) => (.ok ((cname, .fileNode r.1) :: chRest), r.2 ++ logs2)
    | .special _ =>
        match buildChildren fmtTime pathStr depth human_readable rest with
        | (res, logs2) =>
            (res, ⟨.debug, "Skipping non-file, non-dir entry: " ++ childPath⟩ :: logs2)
termination_by l => sizeOf l
decreasing_by
  all_goals simp_arith

end

/-! ## Dynamic argument checking (source lines 227-233)

Python validates `depth` with `isinstance(depth, int)` and `human_readable`
with `isinstance(human_readable, bool)`.  `PyIntLike` embeds the relevant
fragment of Python's dynamic typing: a value that is either a plain `int`
or a `bool`. -/

inductive PyIntLike where
  | pyInt (n : Int)
  | pyBool (b : Bool)
deriving Repr, DecidableEq

/-- Modelled from Python's data-model semantics: `isinstance(x, int)` is
true for `bool` values too, because `bool` is a subclass of `int`. -/
def PyIntLike.isinstance_int : PyIntLike → Bool
  | _ => true

/-- `isinstance(x, bool)`: true only for actual booleans. -/
def PyIntLike.isinstance_bool : PyIntLike → Bool
  | .pyBool _ => true
  | .pyInt _ => false

/-- The integer value Python arithmetic and comparisons see: `True` is 1,
`False` is 0. -/
def PyIntLike.toInt : PyIntLike → Int
  | .pyInt n => n
  | .pyBool b => if b then 1 else 0

/-- `get_dir_tree` with the dynamic type checks of source lines 227-233 in
front: reject a non-`int` depth (`TypeError`), then a depth below -1
(`ValueError`), then a non-`bool` `human_readable` (`TypeError`), then run
the traversal. -/
def get_dir_tree_checked (fmtTime : Int → String) (name pathStr : String) (e : FSEntry)
    (depth human_readable : PyIntLike) : Except PyErr Node × List LogMsg :=
  if !depth.isinstance_int then
    (.error (.typeErr "depth must be int"), [])
  else if depth.toInt < -1 then
    (.error (.valueErr ("depth must be -1 (unlimited) or >=0, got " ++ toString depth.toInt)), [])
  else
    match human_readable with
    | .pyBool b => get_dir_tree fmtTime name pathStr e depth.toInt b
    | .pyInt _ => (.error (.typeErr "human_readable must be bool"), [])

/-! ## Induction over the filesystem model -/

/-- Structural induction over `FSEntry` with the members of a successful
listing available, derived by strong induction on `sizeOf` (the nested
occurrence of `FSEntry` under `List` keeps Lean from generating this form
itself). -/
theorem FSEntry.inductionOn {motive : FSEntry → Prop}
    (hfile : ∀ ex st, motive (.file ex st))
    (hspec : ∀ ex, motive (.special ex))
    (hdirErr : ∀ ex k, motive (.dir ex (.error k)))
    (hdirOk : ∀ ex l, (∀ p ∈ l, motive p.2) → motive (.dir ex (.ok l)))
    (e : FSEntry) : motive e := by
  have H : ∀ n : Nat, ∀ e : FSEntry, sizeOf e ≤ n → motive e := by
    intro n
    induction n with
    | zero =>
      intro e h
      exfalso
      cases e <;> simp_arith at h
    | succ n ih =>
      intro e h
      match e with
      | .file ex st => exact hfile ex st
      | .special ex => exact hspec ex
      | .dir ex (.error k) => exact hdirErr ex k
      | .dir ex (.ok l) =>
        refine hdirOk ex l ?_
        intro p hp
        refine ih p.2 ?_
        have h1 := List.sizeOf_lt_of_mem hp
        have h2 : sizeOf p.2 < sizeOf p := by
          obtain ⟨a, b⟩ := p
          simp_arith
        simp only [FSEntry.dir.sizeOf_spec, Except.ok.sizeOf_spec] at h
        omega
  exact H (sizeOf e) e (Nat.le_refl _)

/-! ## Properties of the sort -/

theorem charListLe_total : ∀ a b : List Char, charListLe a b = true ∨ charListLe b a = true := by
  intro a
  induction a with
  | nil => intro b; left; rfl
  | cons x xs ih =>
    intro b
    cases b with
    | nil => right; rfl
    | cons y ys =>
      simp only [charListLe]
      rcases Nat.lt_trichotomy x.toNat y.toNat with h | h | h
      · left; simp [h]
      · have h1 : ¬ x.toNat < y.toNat := by omega
        have h2 : ¬ y.toNat < x.toNat := by omega
        rcases ih ys with hxy | hyx
        · left; simp [h1, h2, hxy]
        · right; simp [h1, h2, hyx]
      · right; simp [h]

theorem charListLe_cons {x y : Char} {xs ys : List Char} :
    charListLe (x :: xs) (y :: ys) = true ↔
      x.toNat < y.toNat ∨ (x.toNat = y.toNat ∧ charListLe xs ys = true) := by
  simp only [charListLe]
  split_ifs with h1 h2
  · simp [h1]
  · simp
    omega
  · have hxy : x.toNat = y.toNat := by omega
    simp [hxy]

theorem charListLe_trans : ∀ a b c : List Char,
    charListLe a b = true → charListLe b c = true → charListLe a c = true := by
  intro a
  induction a with
  | nil => intro b c _ _; rfl
  | cons x xs ih =>
    intro b c hab hbc
    cases b with
    | nil => simp [charListLe] at hab
    | cons y ys =>
      cases c with
      | nil => simp [charListLe] at hbc
      | cons z zs =>
        rw [charListLe_cons] at hab hbc ⊢
        rcases hab with h1 | ⟨h1, h1'⟩ <;> rcases hbc with h2 | ⟨h2, h2'⟩
        · left; omega
        · left; omega
        · left; omega
        · right
          exact ⟨by omega, ih ys zs h1' h2'⟩

theorem entryLe_total (a b : String × FSEntry) : entryLe a b = true ∨ entryLe b a = true :=
  charListLe_total _ _

theorem entryLe_trans {a b c : String × FSEntry}
    (hab : entryLe a b = true) (hbc : entryLe b c = true) : entryLe a c = true :=
  charListLe_trans _ _ _ hab hbc

theorem insertSorted_perm (x : String × FSEntry) (l : List (String × FSEntry)) :
    (insertSorted x l).Perm (x :: l) := by
  induction l with
  | nil => simp [insertSorted]
  | cons y rest ih =>
    simp only [insertSorted]
    split
    · exact List.Perm.refl _
    · exact ((ih.cons y).trans (List.Perm.swap x y rest))

theorem sortEntries_perm (l : List (String × FSEntry)) : (sortEntries l).Perm l := by
  induction l with
  | nil => exact List.Perm.refl _
  | cons x rest ih => exact (insertSorted_perm x (sortEntries rest)).trans (ih.cons x)

theorem mem_insertSorted {a x : String × FSEntry} {l : List (String × FSEntry)} :
    a ∈ insertSorted x l ↔ a = x ∨ a ∈ l := by
  rw [(insertSorted_perm x l).mem_iff]
  simp

theorem mem_sortEntries {a : String × FSEntry} {l : List (String × FSEntry)} :
    a ∈ sortEntries l ↔ a ∈ l :=
  (sortEntries_perm l).mem_iff

theorem insertSorted_pairwise (x : String × FSEntry) (l : List (String × FSEntry))
    (h : l.Pairwise (fun a b => entryLe a b = true)) :
    (insertSorted x l).Pairwise (fun a b => entryLe a b = true) := by
  induction l with
  | nil => simp [insertSorted]
  | cons y rest ih =>
    rcases List.pairwise_cons.mp h with ⟨hy, hrest⟩
    simp only [insertSorted]
    split
    · rename_i hxy
      refine List.pairwise_cons.mpr ⟨?_, h⟩
      intro z hz
      rcases List.mem_cons.mp hz with rfl | hz2
      · exact hxy
      · exact entryLe_trans hxy (hy z hz2)
    · rename_i hxy
      have hyx : entryLe y x = true := by
        rcases entryLe_total x y with h1 | h1
        · exact absurd h1 hxy
        · exact h1
      refine List.pairwise_cons.mpr ⟨?_, ih hrest⟩
      intro z hz
      rcases mem_insertSorted.mp hz with rfl | hz2
      · exact hyx
      · exact hy z hz2

theorem sortEntries_pairwise (l : List (String × FSEntry)) :
    (sortEntries l).Pairwise (fun a b => entryLe a b = true) := by
  induction l with
  | nil => simp [sortEntries]
  | cons x rest ih => exact insertSorted_pairwise x (sortEntries rest) ih

/-! ## Recursive predicates and measures on the model -/

/-- Boolean `Nodup` on a list of keys. -/
def nodupKeys : List String → Bool
  | [] => true
  | x :: rest => rest.all (fun y => !(x == y)) && nodupKeys rest

theorem nodupKeys_iff {l : List String} : nodupKeys l = true ↔ l.Nodup := by
  induction l with
  | nil => simp [nodupKeys]
  | cons x rest ih =>
    simp [nodupKeys, ih, List.nodup_cons]
    intro _
    constructor
    · intro h hx
      exact (h x hx) rfl
    · intro h y hy hxy
      exact h (hxy ▸ hy)

/-- Boolean pairwise comparison of keys by lower-cased name. -/
def pairwiseLeKeys : List String → Bool
  | [] => true
  | x :: rest => rest.all (fun y => charListLe (lowerKey x) (lowerKey y)) && pairwiseLeKeys rest

theorem pairwiseLeKeys_iff {l : List String} :
    pairwiseLeKeys l = true ↔
      l.Pairwise (fun a b => charListLe (lowerKey a) (lowerKey b) = true) := by
  induction l with
  | nil => simp [pairwiseLeKeys]
  | cons x rest ih => simp [pairwiseLeKeys, ih, List.pairwise_cons]

mutual

/-- A filesystem subtree that offers `get_dir_tree` no occasion for a hard
failure below the root: every directory in it still exists when recursed
into, and every listing either succeeds or fails with the one error kind the
code catches (`PermissionError`).  File-level failures and special entries
are allowed everywhere — the code absorbs or skips those. -/
def FSEntry.good : FSEntry → Bool
  | .file _ _ => true
  | .special _ => true
  | .dir ex (.error .permission) => ex
  | .dir _ (.error .other) => false
  | .dir ex (.ok l) => ex && goodList l
termination_by e => sizeOf e
decreasing_by
  all_goals simp_arith

def goodList : List (String × FSEntry) → Bool
  | [] => true
  | (_, e) :: rest => e.good && goodList rest
termination_by l => sizeOf l
decreasing_by
  all_goals simp_arith

end

theorem goodList_iff {l : List (String × FSEntry)} :
    goodList l = true ↔ ∀ p ∈ l, p.2.good = true := by
  induction l with
  | nil => simp [goodList]
  | cons p rest ih =>
    obtain ⟨k, e⟩ := p
    simp [goodList, ih]

mutual

/-- Every listing in this subtree has pairwise-distinct child names — what an
actual filesystem namespace guarantees. -/
def FSEntry.namesNodup : FSEntry → Bool
  | .file _ _ => true
  | .special _ => true
  | .dir _ (.error _) => true
  | .dir _ (.ok l) => nodupKeys (l.map Prod.fst) && namesNodupList l
termination_by e => sizeOf e
decreasing_by
  all_goals simp_arith

def namesNodupList : List (String × FSEntry) → Bool
  | [] => true
  | (_, e) :: rest => e.namesNodup && namesNodupList rest
termination_by l => sizeOf l
decreasing_by
  all_goals simp_arith

end

theorem namesNodupList_iff {l : List (String × FSEntry)} :
    namesNodupList l = true ↔ ∀ p ∈ l, p.2.namesNodup = true := by
  induction l with
  | nil => simp [namesNodupList]
  | cons p rest ih =>
    obtain ⟨k, e⟩ := p
    simp [namesNodupList, ih]

mutual

/-- The invariant claimed for constructed trees: within every `dirNode`, the
child names are pairwise ordered by lower-cased lexicographic comparison and
pairwise distinct, recursively.  `fileNode` metadata is not a directory and
is unconstrained. -/
def Node.sortedOk : Node → Bool
  | .fileNode _ => true
  | .dirNode ch =>
      pairwiseLeKeys (ch.map Prod.fst) && nodupKeys (ch.map Prod.fst) && childrenSortedOk ch
termination_by n => sizeOf n
decreasing_by
  all_goals simp_arith

def childrenSortedOk : List (String × Node) → Bool
  | [] => true
  | (_, n) :: rest => n.sortedOk && childrenSortedOk rest
termination_by l => sizeOf l
decreasing_by
  all_goals simp_arith

end

theorem childrenSortedOk_iff {l : List (String × Node)} :
    childrenSortedOk l = true ↔ ∀ p ∈ l, p.2.sortedOk = true := by
  induction l with
  | nil => simp [childrenSortedOk]
  | cons p rest ih =>
    obtain ⟨k, n⟩ := p
    simp [childrenSortedOk, ih]

mutual

/-- Nesting height of a built tree: a metadata leaf adds nothing, a
directory node adds one level above its deepest child. -/
def Node.height : Node → Nat
  | .fileNode _ => 0
  | .dirNode ch => 1 + childrenHeight ch
termination_by n => sizeOf n
decreasing_by
  all_goals simp_arith

def childrenHeight : List (String × Node) → Nat
  | [] => 0
  | (_, n) :: rest => max n.height (childrenHeight rest)
termination_by l => sizeOf l
decreasing_by
  all_goals simp_arith

end

theorem childrenHeight_le_iff {l : List (String × Node)} {k : Nat} :
    childrenHeight l ≤ k ↔ ∀ p ∈ l, p.2.height ≤ k := by
  induction l with
  | nil => simp [childrenHeight]
  | cons p rest ih =>
    obtain ⟨name, n⟩ := p
    simp [childrenHeight, Nat.max_le, ih]

mutual

/-- Keep the top `n` directory levels of a tree: at level 0 a directory
keeps its key but loses its children; file metadata is never truncated. -/
def truncateNode : Nat → Node → Node
  | _, .fileNode m => .fileNode m
  | 0, .dirNode _ => .dirNode []
  | n + 1, .dirNode ch => .dirNode (truncateChildren n ch)
termination_by _ t => sizeOf t
decreasing_by
  all_goals simp_arith

def truncateChildren : Nat → List (String × Node) → List (String × Node)
  | _, [] => []
  | n, (k, c) :: rest => (k, truncateNode n c) :: truncateChildren n rest
termination_by _ l => sizeOf l
decreasing_by
  all_goals simp_arith

end

theorem truncateNode_zero_dir (ch : List (String × Node)) :
    truncateNode 0 (.dirNode ch) = .dirNode [] := by
  simp [truncateNode]

theorem truncateChildren_nil (n : Nat) : truncateChildren n [] = [] := by
  simp [truncateChildren]

/-! ## Claim C5: a root that is a regular file -/

theorem get_dir_tree_root_file (fmtTime : Int → String) (name pathStr : String)
    (st : Except OSErrKind FileStat) (depth : Int) (hr : Bool) (hd : -1 ≤ depth) :
    get_dir_tree fmtTime name pathStr (.file true st) depth hr =
      (.ok (.dirNode [(name, .fileNode (get_file_info fmtTime pathStr true st hr).1)]),
       (get_file_info fmtTime pathStr true st hr).2) := by
  simp [get_dir_tree.eq_def, FSEntry.existsNow, show ¬ depth < -1 from by omega]

/-- C5: for every valid depth (≥ -1), calling `get_dir_tree` on an existing
regular file returns the single-entry directory node mapping the file's base
name to the metadata `get_file_info` extracts, together with exactly the
messages `get_file_info` emits; the right-hand side does not mention `depth`,
so the depth argument does not affect the result beyond its own validity
check. -/
theorem c5_root_file (fmtTime : Int → String) (name pathStr : String)
    (st : Except OSErrKind FileStat) (depth : Int) (hr : Bool) (hd : -1 ≤ depth) :
    get_dir_tree fmtTime name pathStr (.file true st) depth hr =
      (.ok (.dirNode [(name, .fileNode (get_file_info fmtTime pathStr true st hr).1)]),
       (get_file_info fmtTime pathStr true st hr).2) :=
  get_dir_tree_root_file fmtTime name pathStr st depth hr hd

/-- C5 (witness): `c5_root_file` at a concrete 2048-byte file and depth 3,
with the metadata evaluated. -/
theorem c5_root_file_witness :
    get_dir_tree (fun _ => "") "note.txt" "/note.txt" (.file true (.ok ⟨2048, 7⟩)) 3 false =
      (.ok (.dirNode [("note.txt",
          .fileNode [("size", .jint 2048), ("modified_time", .jfloat 7)])]), []) := by
  rw [c5_root_file (fun _ => "") "note.txt" "/note.txt" (.ok ⟨2048, 7⟩) 3 false (by norm_num)]
  simp [get_file_info]

/-! ## Claim C6: `get_file_info` never propagates a filesystem error -/

/-- C6: `get_file_info` is a total function into metadata plus log messages —
in the model it cannot raise, because the except-clause of source line 173 is
the `.error` match arm.  If the entry is gone at the moment of inspection it
returns the empty metadata dict and exactly one warning; if `stat()` fails
with any `OSError` it returns the empty metadata dict and exactly one
warning; otherwise it returns exactly the entry's size and modified time
(raw or rendered) and logs nothing. -/
theorem c6_get_file_info_absorbs (fmtTime : Int → String) (pathStr : String)
    (ex : Bool) (stat : Except OSErrKind FileStat) (hr : Bool) :
    (ex = false →
      get_file_info fmtTime pathStr ex stat hr =
        ([], [⟨.warning, "File does not exist: " ++ pathStr⟩])) ∧
    (∀ k, ex = true → stat = .error k →
      get_file_info fmtTime pathStr ex stat hr =
        ([], [⟨.warning, "Cannot access file info for: " ++ pathStr⟩])) ∧
    (∀ st, ex = true → stat = .ok st →
      get_file_info fmtTime pathStr ex stat hr =
        ([("size", if hr then .jstr (human_readable_size st.st_size) else .jint st.st_size),
          ("modified_time", if hr then .jstr (fmtTime st.st_mtime) else .jfloat st.st_mtime)],
         [])) := by
  refine ⟨?_, ?_, ?_⟩
  · rintro rfl
    simp [get_file_info]
  · rintro k rfl rfl
    simp [get_file_info]
  · rintro st rfl rfl
    simp [get_file_info]

/-- C6 (witness): the vanished-entry case and the stat-failure case at
concrete arguments, via `c6_get_file_info_absorbs`. -/
theorem c6_get_file_info_absorbs_witness :
    get_file_info (fun _ => "") "/gone.txt" false (.ok ⟨1, 1⟩) false =
      ([], [⟨.warning, "File does not exist: /gone.txt"⟩]) ∧
    get_file_info (fun _ => "") "/locked.txt" true (.error .permission) false =
      ([], [⟨.warning, "Cannot access file info for: /locked.txt"⟩]) :=
  ⟨(c6_get_file_info_absorbs (fun _ => "") "/gone.txt" false (.ok ⟨1, 1⟩) false).1 rfl,
   (c6_get_file_info_absorbs (fun _ => "") "/locked.txt" true (.error .permission) false).2.1
     .permission rfl rfl⟩

/-! ## Claim C10: a boolean depth passes the `isinstance(depth, int)` check -/

/-- C10: because `bool` is a subclass of `int` in Python, the checked entry
point accepts `depth=True` as depth 1 and `depth=False` as depth 0 without a
`TypeError`, while a non-`bool` `human_readable` (for example a plain `int`)
is rejected with a `TypeError` even when the depth argument is valid. -/
theorem c10_bool_depth_accepted :
    (∀ (fmtTime : Int → String) (name pathStr : String) (e : FSEntry) (b hb : Bool),
      get_dir_tree_checked fmtTime name pathStr e (.pyBool b) (.pyBool hb) =
        get_dir_tree fmtTime name pathStr e (if b then 1 else 0) hb) ∧
    (∀ (fmtTime : Int → String) (name pathStr : String) (e : FSEntry) (d : Int) (m : Int),
      -1 ≤ d →
      get_dir_tree_checked fmtTime name pathStr e (.pyInt d) (.pyInt m) =
        (.error (.typeErr "human_readable must be bool"), [])) := by
  constructor
  · intro fmtTime name pathStr e b hb
    cases b <;>
      simp [get_dir_tree_checked, PyIntLike.isinstance_int, PyIntLike.toInt]
  · intro fmtTime name pathStr e d m hd
    simp [get_dir_tree_checked, PyIntLike.isinstance_int, PyIntLike.toInt,
      show ¬ d < -1 from by omega]

/-- C10 (witness): both conjuncts of `c10_bool_depth_accepted` at concrete
arguments. -/
theorem c10_bool_depth_accepted_witness :
    get_dir_tree_checked (fun _ => "") "d" "/d" (.dir true (.ok [])) (.pyBool true)
        (.pyBool false) =
      get_dir_tree (fun _ => "") "d" "/d" (.dir true (.ok [])) 1 false ∧
    get_dir_tree_checked (fun _ => "") "d" "/d" (.dir true (.ok [])) (.pyInt 3) (.pyInt 0) =
      (.error (.typeErr "human_readable must be bool"), []) := by
  constructor
  · have h := c10_bool_depth_accepted.1 (fun _ => "") "d" "/d" (.dir true (.ok [])) true false
    simpa using h
  · exact c10_bool_depth_accepted.2 (fun _ => "") "d" "/d" (.dir true (.ok [])) 3 0
      (by norm_num)


/-! ## Unfolding lemmas for the traversal

`get_dir_tree` and `buildChildren` are defined by well-founded recursion, so
they do not reduce definitionally; these equations restate their branches
for use in proofs. -/

theorem buildChildren_nil (fmtTime : Int → String) (pathStr : String) (depth : Int) (hr : Bool) :
    buildChildren fmtTime pathStr depth hr [] = (.ok [], []) := by
  rw [buildChildren.eq_def]

theorem buildChildren_cons_dir (fmtTime : Int → String) (pathStr : String) (depth : Int)
    (hr : Bool) (cname : String) (dEx : Bool)
    (dListing : Except OSErrKind (List (String × FSEntry)))
    (rest : List (String × FSEntry)) :
    buildChildren fmtTime pathStr depth hr ((cname, .dir dEx dListing) :: rest) =
      match get_dir_tree fmtTime cname (pathStr ++ "/" ++ cname) (.dir dEx dListing)
          (if depth > 0 then depth - 1 else -1) hr with
      | (.error err, logs) => (.error err, logs)
      | (.ok sub, logs) =>
          match buildChildren fmtTime pathStr depth hr rest with
          | (.error err, logs2) => (.error err, logs ++ logs2)
          | (.ok chRest, logs2) => (.ok ((cname, sub) :: chRest), logs ++ logs2) := by
  rw [buildChildren.eq_def]

theorem buildChildren_cons_file (fmtTime : Int → String) (pathStr : String) (depth : Int)
    (hr : Bool) (cname : String) (fEx : Bool) (fStat : Except OSErrKind FileStat)
    (rest : List (String × FSEntry)) :
    buildChildren fmtTime pathStr depth hr ((cname, .file fEx fStat) :: rest) =
      match buildChildren fmtTime pathStr depth hr rest with
      | (.error err, logs2) =>
          (.error err, (get_file_info fmtTime (pathStr ++ "/" ++ cname) fEx fStat hr).2 ++ logs2)
      | (.ok chRest, logs2) =>
          (.ok ((cname,
              .fileNode (get_file_info fmtTime (pathStr ++ "/" ++ cname) fEx fStat hr).1)
            :: chRest),
           (get_file_info fmtTime (pathStr ++ "/" ++ cname) fEx fStat hr).2 ++ logs2) := by
  rw [buildChildren.eq_def]

theorem buildChildren_cons_special (fmtTime : Int → String) (pathStr : String) (depth : Int)
    (hr : Bool) (cname : String) (ex : Bool) (rest : List (String × FSEntry)) :
    buildChildren fmtTime pathStr depth hr ((cname, .special ex) :: rest) =
      ((buildChildren fmtTime pathStr depth hr rest).1,
        ⟨.debug, "Skipping non-file, non-dir entry: " ++ (pathStr ++ "/" ++ cname)⟩ ::
          (buildChildren fmtTime pathStr depth hr rest).2) := by
  rw [buildChildren.eq_def]

theorem get_dir_tree_bad_depth (fmtTime : Int → String) (name pathStr : String) (e : FSEntry)
    (depth : Int) (hr : Bool) (hd : depth < -1) :
    get_dir_tree fmtTime name pathStr e depth hr =
      (.error (.valueErr ("depth must be -1 (unlimited) or >=0, got " ++ toString depth)),
       []) := by
  rw [get_dir_tree.eq_def]
  simp [hd]

theorem get_dir_tree_gone (fmtTime : Int → String) (name pathStr : String) (e : FSEntry)
    (depth : Int) (hr : Bool) (hd : ¬ depth < -1) (hex : e.existsNow = false) :
    get_dir_tree fmtTime name pathStr e depth hr =
      (.error (.fileNotFound ("Path does not exist: " ++ pathStr)), []) := by
  rw [get_dir_tree.eq_def]
  simp [hd, hex]

theorem get_dir_tree_dir_zero (fmtTime : Int → String) (name pathStr : String)
    (listing : Except OSErrKind (List (String × FSEntry))) (hr : Bool) :
    get_dir_tree fmtTime name pathStr (.dir true listing) 0 hr =
      (.ok (.dirNode []), []) := by
  rw [get_dir_tree.eq_def]
  simp [FSEntry.existsNow]

theorem get_dir_tree_special_zero (fmtTime : Int → String) (name pathStr : String) (hr : Bool) :
    get_dir_tree fmtTime name pathStr (.special true) 0 hr = (.ok (.dirNode []), []) := by
  rw [get_dir_tree.eq_def]
  simp [FSEntry.existsNow]

theorem get_dir_tree_special (fmtTime : Int → String) (name pathStr : String) (depth : Int)
    (hr : Bool) (hd : ¬ depth < -1) (h0 : depth ≠ 0) :
    get_dir_tree fmtTime name pathStr (.special true) depth hr =
      (.error (.osErr ("Not a directory: " ++ pathStr)), []) := by
  rw [get_dir_tree.eq_def]
  simp [FSEntry.existsNow, hd, h0]

theorem get_dir_tree_dir_perm (fmtTime : Int → String) (name pathStr : String) (depth : Int)
    (hr : Bool) (hd : ¬ depth < -1) (h0 : depth ≠ 0) :
    get_dir_tree fmtTime name pathStr (.dir true (.error .permission)) depth hr =
      (.ok (.dirNode []), [⟨.warning, "Permission denied: " ++ pathStr⟩]) := by
  rw [get_dir_tree.eq_def]
  simp [FSEntry.existsNow, hd, h0]

theorem get_dir_tree_dir_oserr (fmtTime : Int → String) (name pathStr : String) (depth : Int)
    (hr : Bool) (hd : ¬ depth < -1) (h0 : depth ≠ 0) :
    get_dir_tree fmtTime name pathStr (.dir true (.error .other)) depth hr =
      (.error (.osErr ("OSError while listing: " ++ pathStr)), []) := by
  rw [get_dir_tree.eq_def]
  simp [FSEntry.existsNow, hd, h0]

theorem get_dir_tree_dir_ok (fmtTime : Int → String) (name pathStr : String)
    (l : List (String × FSEntry)) (depth : Int) (hr : Bool)
    (hd : ¬ depth < -1) (h0 : depth ≠ 0) :
    get_dir_tree fmtTime name pathStr (.dir true (.ok l)) depth hr =
      match buildChildren fmtTime pathStr depth hr (sortEntries l) with
      | (.error err, logs) => (.error err, logs)
      | (.ok ch, logs) => (.ok (.dirNode ch), logs) := by
  rw [get_dir_tree.eq_def]
  simp [FSEntry.existsNow, hd, h0]

/-! ## Claim C2: what propagates as a hard failure -/

/-- C2 (counterexample): a root directory that exists, with a valid depth,
containing a subdirectory whose listing fails with a non-permission
`OSError` (a "transient OS error" in the claim's words) and a healthy
sibling file.  The claim says such an error is absorbed as an empty subtree
plus a warning and never aborts the scan of siblings; the code propagates it
out of `get_dir_tree` as a hard failure — neither `NotFound` nor
`InvalidArgument` — and the sibling `ok.txt` is never reported. -/
theorem c2_oserror_counterexample :
    get_dir_tree (fun _ => "") "root" "/root"
        (.dir true (.ok [("bad", .dir true (.error .other)),
                         ("ok.txt", .file true (.ok ⟨5, 100⟩))]))
        (-1) false =
      (.error (.osErr "OSError while listing: /root/bad"), []) := by
  rw [get_dir_tree_dir_ok _ _ _ _ _ _ (by norm_num) (by norm_num)]
  have hsort :
      sortEntries [("bad", FSEntry.dir true (.error .other)),
                   ("ok.txt", FSEntry.file true (.ok ⟨5, 100⟩))] =
        [("bad", FSEntry.dir true (.error .other)),
         ("ok.txt", FSEntry.file true (.ok ⟨5, 100⟩))] := by
    simp [sortEntries, insertSorted, entryLe, lowerKey, charListLe]
  rw [hsort, buildChildren_cons_dir]
  rw [show (if (-1 : Int) > 0 then (-1 : Int) - 1 else -1) = -1 from by norm_num]
  rw [get_dir_tree_dir_oserr _ _ _ _ _ (by norm_num) (by norm_num)]
  rfl

theorem buildChildren_isOk (fmtTime : Int → String) (hr : Bool) :
    ∀ (l : List (String × FSEntry)) (pathStr : String) (depth : Int),
    (∀ p ∈ l, p.2.good = true) →
    (∀ p ∈ l, ∀ name cpath (d : Int), -1 ≤ d → p.2.existsNow = true →
        p.2.isSpecial = false → p.2.good = true →
        (get_dir_tree fmtTime name cpath p.2 d hr).1.isOk = true) →
    (buildChildren fmtTime pathStr depth hr l).1.isOk = true := by
  intro l
  induction l with
  | nil =>
    intro pathStr depth _ _
    simp [buildChildren_nil, Except.isOk, Except.toBool]
  | cons hd rest ih =>
    intro pathStr depth hgood hrec
    obtain ⟨cname, ce⟩ := hd
    have hgood_hd : ce.good = true := hgood (cname, ce) (List.mem_cons_self _ _)
    have hrest_ok : (buildChildren fmtTime pathStr depth hr rest).1.isOk = true :=
      ih pathStr depth (fun p hp => hgood p (List.mem_cons_of_mem _ hp))
        (fun p hp => hrec p (List.mem_cons_of_mem _ hp))
    rcases hR : buildChildren fmtTime pathStr depth hr rest with ⟨resR, logsR⟩
    rw [hR] at hrest_ok
    cases resR with
    | error err => simp [Except.isOk, Except.toBool] at hrest_ok
    | ok chR =>
      cases ce with
      | file fEx fStat =>
        simp [buildChildren_cons_file, hR, Except.isOk, Except.toBool]
      | special ex =>
        simp [buildChildren_cons_special, hR, Except.isOk, Except.toBool]
      | dir dEx dListing =>
        have hdEx : dEx = true := by
          cases dListing with
          | ok l2 => exact (by simpa [FSEntry.good] using hgood_hd : dEx = true ∧ _).1
          | error k =>
            cases k with
            | permission => simpa [FSEntry.good] using hgood_hd
            | other => simp [FSEntry.good] at hgood_hd
        subst hdEx
        have hchild := hrec (cname, .dir true dListing) (List.mem_cons_self _ _)
          cname (pathStr ++ "/" ++ cname) (if depth > 0 then depth - 1 else -1)
          (by split <;> omega) (by simp [FSEntry.existsNow]) (by simp [FSEntry.isSpecial])
          hgood_hd
        rcases hC : get_dir_tree fmtTime cname (pathStr ++ "/" ++ cname) (.dir true dListing)
            (if depth > 0 then depth - 1 else -1) hr with ⟨resC, logsC⟩
        rw [hC] at hchild
        cases resC with
        | error err => simp [Except.isOk, Except.toBool] at hchild
        | ok sub => simp [buildChildren_cons_dir, hC, hR, Except.isOk, Except.toBool]

/-- C2 (amended): the hard-failure boundary of `get_dir_tree`.  An invalid
depth raises `ValueError` and a missing root raises `FileNotFoundError`
(the two precondition failures of the claim); conversely, when the root
exists, is a file or a directory, and the walked subtree is `good` — every
directory in it still exists when recursed into and no listing fails with a
non-permission `OSError` — the call returns a tree: file-level stat
failures, vanished files, and permission-denied listings are absorbed.  A
permission-denied listing in particular yields an empty node plus one
warning.  (Outside `good`: a non-permission listing error, or a directory
vanishing between its parent's type check and the recursive call, does
propagate — see `c2_oserror_counterexample`.) -/
theorem c2_hard_failure_boundary :
    (∀ (fmtTime : Int → String) (name pathStr : String) (e : FSEntry) (depth : Int) (hr : Bool),
      depth < -1 →
      get_dir_tree fmtTime name pathStr e depth hr =
        (.error (.valueErr ("depth must be -1 (unlimited) or >=0, got " ++ toString depth)),
         [])) ∧
    (∀ (fmtTime : Int → String) (name pathStr : String) (e : FSEntry) (depth : Int) (hr : Bool),
      -1 ≤ depth → e.existsNow = false →
      get_dir_tree fmtTime name pathStr e depth hr =
        (.error (.fileNotFound ("Path does not exist: " ++ pathStr)), [])) ∧
    (∀ (fmtTime : Int → String) (name pathStr : String) (e : FSEntry) (depth : Int) (hr : Bool),
      -1 ≤ depth → e.existsNow = true → e.isSpecial = false → e.good = true →
      (get_dir_tree fmtTime name pathStr e depth hr).1.isOk = true) ∧
    (∀ (fmtTime : Int → String) (name pathStr : String) (depth : Int) (hr : Bool),
      -1 ≤ depth → depth ≠ 0 →
      get_dir_tree fmtTime name pathStr (.dir true (.error .permission)) depth hr =
        (.ok (.dirNode []), [⟨.warning, "Permission denied: " ++ pathStr⟩])) := by
  refine ⟨?_, ?_, ?_, ?_⟩
  · intro fmtTime name pathStr e depth hr hd
    exact get_dir_tree_bad_depth fmtTime name pathStr e depth hr hd
  · intro fmtTime name pathStr e depth hr hd hex
    exact get_dir_tree_gone fmtTime name pathStr e depth hr (by omega) hex
  · intro fmtTime name pathStr e depth hr
    induction e using FSEntry.inductionOn generalizing name pathStr depth with
    | hfile ex st =>
      intro hd hex _ _
      simp only [FSEntry.existsNow] at hex
      subst hex
      rw [get_dir_tree_root_file fmtTime name pathStr st depth hr hd]
      simp [Except.isOk, Except.toBool]
    | hspec ex =>
      intro _ _ hsp _
      simp [FSEntry.isSpecial] at hsp
    | hdirErr ex k =>
      intro hd hex _ hgood
      simp only [FSEntry.existsNow] at hex
      subst hex
      cases k with
      | permission =>
        by_cases h0 : depth = 0
        · subst h0
          rw [get_dir_tree_dir_zero]
          simp [Except.isOk, Except.toBool]
        · rw [get_dir_tree_dir_perm fmtTime name pathStr depth hr (by omega) h0]
          simp [Except.isOk, Except.toBool]
      | other => simp [FSEntry.good] at hgood
    | hdirOk ex l ihl =>
      intro hd hex _ hgood
      simp only [FSEntry.existsNow] at hex
      subst hex
      have hgoodl : goodList l = true := by simpa [FSEntry.good] using hgood
      by_cases h0 : depth = 0
      · subst h0
        rw [get_dir_tree_dir_zero]
        simp [Except.isOk, Except.toBool]
      · have hbc : (buildChildren fmtTime pathStr depth hr (sortEntries l)).1.isOk = true := by
          refine buildChildren_isOk fmtTime hr (sortEntries l) pathStr depth ?_ ?_
          · intro p hp
            exact goodList_iff.mp hgoodl p (mem_sortEntries.mp hp)
          · intro p hp name2 cpath d hdd hpex hpsp hpgood
            exact ihl p (mem_sortEntries.mp hp) name2 cpath d hdd hpex hpsp hpgood
        rw [get_dir_tree_dir_ok fmtTime name pathStr l depth hr (by omega) h0]
        rcases hB : buildChildren fmtTime pathStr depth hr (sortEntries l) with ⟨resB, logsB⟩
        rw [hB] at hbc
        cases resB with
        | error err => simp [Except.isOk, Except.toBool] at hbc
        | ok ch => simp [Except.isOk, Except.toBool]
  · intro fmtTime name pathStr depth hr hd h0
    exact get_dir_tree_dir_perm fmtTime name pathStr depth hr (by omega) h0

/-- C2 (witness): the amended theorem's conjuncts applied at concrete
inputs — an invalid depth, a vanished root, a good tree containing a
permission-denied subdirectory (the scan succeeds), and a root whose own
listing is permission-denied. -/
theorem c2_hard_failure_boundary_witness :
    get_dir_tree (fun _ => "") "r" "/r" (.dir true (.ok [])) (-2) false =
      (.error (.valueErr "depth must be -1 (unlimited) or >=0, got -2"), []) ∧
    get_dir_tree (fun _ => "") "r" "/r" (.dir false (.ok [])) 1 false =
      (.error (.fileNotFound "Path does not exist: /r"), []) ∧
    (get_dir_tree (fun _ => "") "r" "/r"
        (.dir true (.ok [("locked", .dir true (.error .permission)),
                         ("a.txt", .file true (.ok ⟨5, 100⟩))])) (-1) false).1.isOk = true ∧
    get_dir_tree (fun _ => "") "secret" "/secret" (.dir true (.error .permission)) (-1) false =
      (.ok (.dirNode []), [⟨.warning, "Permission denied: /secret"⟩]) := by
  refine ⟨?_, ?_, ?_, ?_⟩
  · exact c2_hard_failure_boundary.1 (fun _ => "") "r" "/r" (.dir true (.ok [])) (-2) false
      (by norm_num)
  · exact c2_hard_failure_boundary.2.1 (fun _ => "") "r" "/r" (.dir false (.ok [])) 1 false
      (by norm_num) rfl
  · refine c2_hard_failure_boundary.2.2.1 (fun _ => "") "r" "/r" _ (-1) false
      (by norm_num) rfl rfl ?_
    simp [FSEntry.good, goodList]
  · exact c2_hard_failure_boundary.2.2.2 (fun _ => "") "secret" "/secret" (-1) false
      (by norm_num) (by norm_num)

/-! ## Claim C9: the depth budget bounds the recursion -/

theorem child_budget_eq (M : Nat) :
    (if ((M : Int) + 1) > 0 then ((M : Int) + 1) - 1 else -1) = (M : Int) := by
  rw [if_pos (by omega)]
  ring

theorem buildChildren_height (fmtTime : Int → String) (hr : Bool) :
    ∀ (l : List (String × FSEntry)) (pathStr : String) (M : Nat)
      (ch : List (String × Node)) (logs : List LogMsg),
    (∀ p ∈ l, ∀ (name cpath : String) (N : Nat) (t : Node) (logs2 : List LogMsg),
        get_dir_tree fmtTime name cpath p.2 (N : Int) hr = (.ok t, logs2) →
        Node.height t ≤ N + 1) →
    buildChildren fmtTime pathStr ((M : Int) + 1) hr l = (.ok ch, logs) →
    childrenHeight ch ≤ M + 1 := by
  intro l
  induction l with
  | nil =>
    intro pathStr M ch logs _ hbc
    rw [buildChildren_nil] at hbc
    cases hbc
    simp [childrenHeight]
  | cons hd rest ih =>
    intro pathStr M ch logs hrec hbc
    obtain ⟨cname, ce⟩ := hd
    have hrec_rest : ∀ p ∈ rest, ∀ (name cpath : String) (N : Nat) (t : Node)
        (logs2 : List LogMsg),
        get_dir_tree fmtTime name cpath p.2 (N : Int) hr = (.ok t, logs2) →
        Node.height t ≤ N + 1 :=
      fun p hp => hrec p (List.mem_cons_of_mem _ hp)
    cases ce with
    | dir dEx dListing =>
      rw [buildChildren_cons_dir, child_budget_eq] at hbc
      rcases hC : get_dir_tree fmtTime cname (pathStr ++ "/" ++ cname) (.dir dEx dListing)
          (M : Int) hr with ⟨resC, logsC⟩
      rw [hC] at hbc
      cases resC with
      | error err => simp at hbc
      | ok sub =>
        rcases hR : buildChildren fmtTime pathStr ((M : Int) + 1) hr rest with ⟨resR, logsR⟩
        rw [hR] at hbc
        cases resR with
        | error err => simp at hbc
        | ok chR =>
          simp only [Prod.mk.injEq, Except.ok.injEq] at hbc
          obtain ⟨rfl, rfl⟩ := hbc
          have hsub : Node.height sub ≤ M + 1 :=
            hrec (cname, .dir dEx dListing) (List.mem_cons_self _ _)
              cname (pathStr ++ "/" ++ cname) M sub logsC hC
          have hrest : childrenHeight chR ≤ M + 1 := ih pathStr M chR logsR hrec_rest hR
          simp [childrenHeight, Nat.max_le, hsub, hrest]
    | file fEx fStat =>
      rw [buildChildren_cons_file] at hbc
      rcases hR : buildChildren fmtTime pathStr ((M : Int) + 1) hr rest with ⟨resR, logsR⟩
      rw [hR] at hbc
      cases resR with
      | error err => simp at hbc
      | ok chR =>
        simp only [Prod.mk.injEq, Except.ok.injEq] at hbc
        obtain ⟨rfl, rfl⟩ := hbc
        have hrest : childrenHeight chR ≤ M + 1 := ih pathStr M chR logsR hrec_rest hR
        simp [childrenHeight, Nat.max_le, hrest, Node.height]
    | special ex =>
      rw [buildChildren_cons_special] at hbc
      rcases hR : buildChildren fmtTime pathStr ((M : Int) + 1) hr rest with ⟨resR, logsR⟩
      rw [hR] at hbc
      cases resR with
      | error err => simp at hbc
      | ok chR =>
        simp only [Prod.mk.injEq, Except.ok.injEq] at hbc
        obtain ⟨rfl, rfl⟩ := hbc
        exact ih pathStr M chR logsR hrec_rest hR

/-- C9: with a nonnegative depth budget `N`, any tree `get_dir_tree`
returns nests at most `N + 1` directory levels — the recursion passes a
budget smaller by one to each subdirectory and stops at budget 0, so it
terminates after at most `N` levels below the root regardless of the
filesystem's shape.  (Termination itself holds for every budget, including
-1, because the model's definition is accepted by well-founded recursion on
the — finite and acyclic — filesystem value.) -/
theorem c9_depth_bounds_recursion (fmtTime : Int → String) (hr : Bool) (e : FSEntry) :
    ∀ (name pathStr : String) (N : Nat) (t : Node) (logs : List LogMsg),
    get_dir_tree fmtTime name pathStr e (N : Int) hr = (.ok t, logs) →
    Node.height t ≤ N + 1 := by
  induction e using FSEntry.inductionOn with
  | hfile ex st =>
    intro name pathStr N t logs h
    cases ex with
    | false =>
      rw [get_dir_tree_gone fmtTime name pathStr (.file false st) (N : Int) hr (by omega)
        rfl] at h
      simp at h
    | true =>
      rw [get_dir_tree_root_file fmtTime name pathStr st (N : Int) hr (by omega)] at h
      simp only [Prod.mk.injEq, Except.ok.injEq] at h
      obtain ⟨rfl, rfl⟩ := h
      simp [Node.height, childrenHeight]
  | hspec ex =>
    intro name pathStr N t logs h
    cases ex with
    | false =>
      rw [get_dir_tree_gone fmtTime name pathStr (.special false) (N : Int) hr (by omega)
        rfl] at h
      simp at h
    | true =>
      by_cases h0 : N = 0
      · subst h0
        rw [show ((0 : Nat) : Int) = 0 from rfl, get_dir_tree_special_zero] at h
        simp only [Prod.mk.injEq, Except.ok.injEq] at h
        obtain ⟨rfl, rfl⟩ := h
        simp [Node.height, childrenHeight]
      · rw [get_dir_tree_special fmtTime name pathStr (N : Int) hr (by omega)
          (by exact_mod_cast h0)] at h
        simp at h
  | hdirErr ex k =>
    intro name pathStr N t logs h
    cases ex with
    | false =>
      rw [get_dir_tree_gone fmtTime name pathStr (.dir false (.error k)) (N : Int) hr
        (by omega) rfl] at h
      simp at h
    | true =>
      by_cases h0 : N = 0
      · subst h0
        rw [show ((0 : Nat) : Int) = 0 from rfl, get_dir_tree_dir_zero] at h
        simp only [Prod.mk.injEq, Except.ok.injEq] at h
        obtain ⟨rfl, rfl⟩ := h
        simp [Node.height, childrenHeight]
      · cases k with
        | permission =>
          rw [get_dir_tree_dir_perm fmtTime name pathStr (N : Int) hr (by omega)
            (by exact_mod_cast h0)] at h
          simp only [Prod.mk.injEq, Except.ok.injEq] at h
          obtain ⟨rfl, rfl⟩ := h
          simp [Node.height, childrenHeight]
        | other =>
          rw [get_dir_tree_dir_oserr fmtTime name pathStr (N : Int) hr (by omega)
            (by exact_mod_cast h0)] at h
          simp at h
  | hdirOk ex l ihl =>
    intro name pathStr N t logs h
    cases ex with
    | false =>
      rw [get_dir_tree_gone fmtTime name pathStr (.dir false (.ok l)) (N : Int) hr
        (by omega) rfl] at h
      simp at h
    | true =>
      match N with
      | 0 =>
        rw [show ((0 : Nat) : Int) = 0 from rfl, get_dir_tree_dir_zero] at h
        simp only [Prod.mk.injEq, Except.ok.injEq] at h
        obtain ⟨rfl, rfl⟩ := h
        simp [Node.height, childrenHeight]
      | M + 1 =>
        rw [get_dir_tree_dir_ok fmtTime name pathStr l ((M + 1 : Nat) : Int) hr (by omega)
          (by omega)] at h
        have hcast : ((M + 1 : Nat) : Int) = (M : Int) + 1 := by push_cast; ring
        rw [hcast] at h
        rcases hB : buildChildren fmtTime pathStr ((M : Int) + 1) hr (sortEntries l)
          with ⟨resB, logsB⟩
        rw [hB] at h
        cases resB with
        | error err => simp at h
        | ok ch =>
          simp only [Prod.mk.injEq, Except.ok.injEq] at h
          obtain ⟨rfl, rfl⟩ := h
          have hch : childrenHeight ch ≤ M + 1 := by
            refine buildChildren_height fmtTime hr (sortEntries l) pathStr M ch logsB ?_ hB
            intro p hp name2 cpath N2 t2 logs2 h2
            exact ihl p (mem_sortEntries.mp hp) name2 cpath N2 t2 logs2 h2
          simp only [Node.height]
          omega

/-- C9 (witness): `c9_depth_bounds_recursion` at a concrete two-level
filesystem scanned with budget 1: the tree cuts off below the first level
and its height is within the bound. -/
theorem c9_depth_bounds_recursion_witness :
    Node.height (.dirNode [("sub", .dirNode [])]) ≤ 1 + 1 := by
  refine c9_depth_bounds_recursion (fun _ => "") false
    (.dir true (.ok [("sub", .dir true (.ok [("deep.txt", .file true (.ok ⟨1, 1⟩))]))]))
    "r" "/r" 1 (.dirNode [("sub", .dirNode [])]) [] ?_
  rw [show ((1 : Nat) : Int) = 1 from rfl,
    get_dir_tree_dir_ok _ _ _ _ _ _ (by norm_num) (by norm_num)]
  have hsort : sortEntries [("sub", FSEntry.dir true (.ok [("deep.txt",
      FSEntry.file true (.ok ⟨1, 1⟩))]))] =
      [("sub", FSEntry.dir true (.ok [("deep.txt", FSEntry.file true (.ok ⟨1, 1⟩))]))] := by
    simp [sortEntries, insertSorted]
  rw [hsort, buildChildren_cons_dir]
  rw [show (if (1 : Int) > 0 then (1 : Int) - 1 else -1) = 0 from by norm_num]
  rw [get_dir_tree_dir_zero, buildChildren_nil]
  rfl

/-! ## Claim C8: entries that are neither file nor directory never appear -/

theorem buildChildren_keys (fmtTime : Int → String) (hr : Bool) :
    ∀ (l : List (String × FSEntry)) (pathStr : String) (depth : Int)
      (res : List (String × Node)) (logs : List LogMsg),
    buildChildren fmtTime pathStr depth hr l = (.ok res, logs) →
    res.map Prod.fst = (l.filter (fun p => !p.2.isSpecial)).map Prod.fst := by
  intro l
  induction l with
  | nil =>
    intro pathStr depth res logs hbc
    rw [buildChildren_nil] at hbc
    cases hbc
    simp
  | cons hd rest ih =>
    intro pathStr depth res logs hbc
    obtain ⟨cname, ce⟩ := hd
    cases ce with
    | dir dEx dListing =>
      rw [buildChildren_cons_dir] at hbc
      rcases hC : get_dir_tree fmtTime cname (pathStr ++ "/" ++ cname) (.dir dEx dListing)
          (if depth > 0 then depth - 1 else -1) hr with ⟨resC, logsC⟩
      rw [hC] at hbc
      cases resC with
      | error err => simp at hbc
      | ok sub =>
        rcases hR : buildChildren fmtTime pathStr depth hr rest with ⟨resR, logsR⟩
        rw [hR] at hbc
        cases resR with
        | error err => simp at hbc
        | ok chR =>
          simp only [Prod.mk.injEq, Except.ok.injEq] at hbc
          obtain ⟨rfl, rfl⟩ := hbc
          simp [FSEntry.isSpecial, List.filter, ih pathStr depth chR logsR hR]
    | file fEx fStat =>
      rw [buildChildren_cons_file] at hbc
      rcases hR : buildChildren fmtTime pathStr depth hr rest with ⟨resR, logsR⟩
      rw [hR] at hbc
      cases resR with
      | error err => simp at hbc
      | ok chR =>
        simp only [Prod.mk.injEq, Except.ok.injEq] at hbc
        obtain ⟨rfl, rfl⟩ := hbc
        simp [FSEntry.isSpecial, List.filter, ih pathStr depth chR logsR hR]
    | special ex =>
      rw [buildChildren_cons_special] at hbc
      rcases hR : buildChildren fmtTime pathStr depth hr rest with ⟨resR, logsR⟩
      rw [hR] at hbc
      cases resR with
      | error err => simp at hbc
      | ok chR =>
        simp only [Prod.mk.injEq, Except.ok.injEq] at hbc
        obtain ⟨rfl, rfl⟩ := hbc
        simp [FSEntry.isSpecial, List.filter, ih pathStr depth chR logsR hR]

/-- C8: special entries (neither regular file nor directory) leave no key in
the constructed children — the keys of any loop result are exactly the names
of the non-special entries of the processed listing, in order — and each
skipped special entry is reported at debug level.  Every `dirNode` anywhere
in a `get_dir_tree` result is the loop result for the corresponding
listing (second conjunct: the top level explicitly). -/
theorem c8_specials_never_appear :
    (∀ (fmtTime : Int → String) (pathStr : String) (depth : Int) (hr : Bool)
        (l : List (String × FSEntry)) (res : List (String × Node)) (logs : List LogMsg),
      buildChildren fmtTime pathStr depth hr l = (.ok res, logs) →
      res.map Prod.fst = (l.filter (fun p => !p.2.isSpecial)).map Prod.fst ∧
      (∀ p ∈ l, p.2.isSpecial = true →
        (⟨.debug, "Skipping non-file, non-dir entry: " ++ (pathStr ++ "/" ++ p.1)⟩ : LogMsg)
          ∈ logs)) ∧
    (∀ (fmtTime : Int → String) (name pathStr : String) (l : List (String × FSEntry))
        (depth : Int) (hr : Bool) (t : Node) (logs : List LogMsg),
      ¬ depth < -1 → depth ≠ 0 →
      get_dir_tree fmtTime name pathStr (.dir true (.ok l)) depth hr = (.ok t, logs) →
      ∃ ch, t = .dirNode ch ∧
        ch.map Prod.fst = ((sortEntries l).filter (fun p => !p.2.isSpecial)).map Prod.fst) := by
  constructor
  · intro fmtTime pathStr depth hr l
    induction l with
    | nil =>
      intro res logs hbc
      rw [buildChildren_nil] at hbc
      cases hbc
      simp
    | cons hd rest ih =>
      intro res logs hbc
      obtain ⟨cname, ce⟩ := hd
      cases ce with
      | dir dEx dListing =>
        rw [buildChildren_cons_dir] at hbc
        rcases hC : get_dir_tree fmtTime cname (pathStr ++ "/" ++ cname) (.dir dEx dListing)
            (if depth > 0 then depth - 1 else -1) hr with ⟨resC, logsC⟩
        rw [hC] at hbc
        cases resC with
        | error err => simp at hbc
        | ok sub =>
          rcases hR : buildChildren fmtTime pathStr depth hr rest with ⟨resR, logsR⟩
          rw [hR] at hbc
          cases resR with
          | error err => simp at hbc
          | ok chR =>
            simp only [Prod.mk.injEq, Except.ok.injEq] at hbc
            obtain ⟨rfl, rfl⟩ := hbc
            obtain ⟨hkeys, hdebug⟩ := ih chR logsR hR
            refine ⟨by simp [FSEntry.isSpecial, List.filter, hkeys], ?_⟩
            intro p hp hsp
            rcases List.mem_cons.mp hp with rfl | hp2
            · simp [FSEntry.isSpecial] at hsp
            · exact List.mem_append_right _ (hdebug p hp2 hsp)
      | file fEx fStat =>
        rw [buildChildren_cons_file] at hbc
        rcases hR : buildChildren fmtTime pathStr depth hr rest with ⟨resR, logsR⟩
        rw [hR] at hbc
        cases resR with
        | error err => simp at hbc
        | ok chR =>
          simp only [Prod.mk.injEq, Except.ok.injEq] at hbc
          obtain ⟨rfl, rfl⟩ := hbc
          obtain ⟨hkeys, hdebug⟩ := ih chR logsR hR
          refine ⟨by simp [FSEntry.isSpecial, List.filter, hkeys], ?_⟩
          intro p hp hsp
          rcases List.mem_cons.mp hp with rfl | hp2
          · simp [FSEntry.isSpecial] at hsp
          · exact List.mem_append_right _ (hdebug p hp2 hsp)
      | special ex =>
        rw [buildChildren_cons_special] at hbc
        rcases hR : buildChildren fmtTime pathStr depth hr rest with ⟨resR, logsR⟩
        rw [hR] at hbc
        cases resR with
        | error err => simp at hbc
        | ok chR =>
          simp only [Prod.mk.injEq, Except.ok.injEq] at hbc
          obtain ⟨rfl, rfl⟩ := hbc
          obtain ⟨hkeys, hdebug⟩ := ih chR logsR hR
          refine ⟨by simp [FSEntry.isSpecial, List.filter, hkeys], ?_⟩
          intro p hp hsp
          rcases List.mem_cons.mp hp with rfl | hp2
          · exact List.mem_cons_self _ _
          · exact List.mem_cons_of_mem _ (hdebug p hp2 hsp)
  · intro fmtTime name pathStr l depth hr t logs hd h0 h
    rw [get_dir_tree_dir_ok fmtTime name pathStr l depth hr hd h0] at h
    rcases hB : buildChildren fmtTime pathStr depth hr (sortEntries l) with ⟨resB, logsB⟩
    rw [hB] at h
    cases resB with
    | error err => simp at h
    | ok ch =>
      simp only [Prod.mk.injEq, Except.ok.injEq] at h
      obtain ⟨rfl, rfl⟩ := h
      exact ⟨ch, rfl, buildChildren_keys fmtTime hr (sortEntries l) pathStr depth ch logsB hB⟩

/-- C8 (witness): `c8_specials_never_appear` at a concrete listing holding a
socket between two regular entries: the keys skip it and the debug message
is logged. -/
theorem c8_specials_never_appear_witness :
    ([("a.txt", Node.fileNode [("size", .jint 1), ("modified_time", .jfloat 1)]),
      ("c", Node.dirNode [])].map Prod.fst =
      ([("a.txt", FSEntry.file true (.ok ⟨1, 1⟩)),
        ("b.sock", FSEntry.special true),
        ("c", FSEntry.dir true (.ok []))].filter
          (fun p => !p.2.isSpecial)).map Prod.fst) ∧
    (⟨.debug, "Skipping non-file, non-dir entry: " ++ ("/r" ++ "/" ++ "b.sock")⟩ : LogMsg) ∈
      [(⟨.debug, "Skipping non-file, non-dir entry: /r/b.sock"⟩ : LogMsg)] := by
  have hbc : buildChildren (fun _ => "") "/r" (-1) false
      [("a.txt", FSEntry.file true (.ok ⟨1, 1⟩)),
       ("b.sock", FSEntry.special true),
       ("c", FSEntry.dir true (.ok []))] =
      (.ok [("a.txt", Node.fileNode [("size", .jint 1), ("modified_time", .jfloat 1)]),
            ("c", Node.dirNode [])],
       [⟨.debug, "Skipping non-file, non-dir entry: /r/b.sock"⟩]) := by
    rw [buildChildren_cons_file, buildChildren_cons_special, buildChildren_cons_dir]
    rw [show (if (-1 : Int) > 0 then (-1 : Int) - 1 else -1) = -1 from by norm_num]
    rw [get_dir_tree_dir_ok _ _ _ _ _ _ (by norm_num) (by norm_num)]
    rw [show sortEntries [] = [] from rfl]
    simp [buildChildren_nil, get_file_info]
  have h := (c8_specials_never_appear.1 (fun _ => "") "/r" (-1) false
    [("a.txt", FSEntry.file true (.ok ⟨1, 1⟩)),
     ("b.sock", FSEntry.special true),
     ("c", FSEntry.dir true (.ok []))]
    [("a.txt", Node.fileNode [("size", .jint 1), ("modified_time", .jfloat 1)]),
     ("c", Node.dirNode [])]
    [⟨.debug, "Skipping non-file, non-dir entry: /r/b.sock"⟩] hbc)
  exact ⟨h.1, h.2 ("b.sock", FSEntry.special true) (by simp) rfl⟩

/-! ## Claim C3: the depth law -/

theorem truncateNode_dir_nil (N : Nat) :
    truncateNode N (.dirNode []) = .dirNode [] := by
  cases N with
  | zero => simp [truncateNode]
  | succ M => simp [truncateNode, truncateChildren]

theorem truncateChildren_cons (M : Nat) (k : String) (c : Node) (rest : List (String × Node)) :
    truncateChildren M ((k, c) :: rest) = (k, truncateNode M c) :: truncateChildren M rest := by
  simp [truncateChildren]

theorem c3_children_truncate (fmtTime : Int → String) (hr : Bool) :
    ∀ (l : List (String × FSEntry)) (pathStr : String) (ch : List (String × Node))
      (logs : List LogMsg),
    (∀ p ∈ l, p.2.isDir = true → ∀ (name cpath : String) (t : Node) (logsE : List LogMsg),
        get_dir_tree fmtTime name cpath p.2 (-1) hr = (.ok t, logsE) →
        ∀ N : Nat, ∃ logs2,
          get_dir_tree fmtTime name cpath p.2 (N : Int) hr = (.ok (truncateNode N t), logs2)) →
    buildChildren fmtTime pathStr (-1) hr l = (.ok ch, logs) →
    ∀ M : Nat, ∃ logs2,
      buildChildren fmtTime pathStr ((M : Int) + 1) hr l =
        (.ok (truncateChildren M ch), logs2) := by
  intro l
  induction l with
  | nil =>
    intro pathStr ch logs _ hbc M
    rw [buildChildren_nil] at hbc
    cases hbc
    exact ⟨[], by rw [buildChildren_nil, truncateChildren_nil]⟩
  | cons hd rest ih =>
    intro pathStr ch logs hrec hbc M
    obtain ⟨cname, ce⟩ := hd
    have hrec_rest := fun p hp => hrec p (List.mem_cons_of_mem _ hp)
    cases ce with
    | dir dEx dListing =>
      rw [buildChildren_cons_dir,
        show (if (-1 : Int) > 0 then (-1 : Int) - 1 else -1) = -1 from by norm_num] at hbc
      rcases hC : get_dir_tree fmtTime cname (pathStr ++ "/" ++ cname) (.dir dEx dListing)
          (-1) hr with ⟨resC, logsC⟩
      rw [hC] at hbc
      cases resC with
      | error err => simp at hbc
      | ok sub =>
        rcases hR : buildChildren fmtTime pathStr (-1) hr rest with ⟨resR, logsR⟩
        rw [hR] at hbc
        cases resR with
        | error err => simp at hbc
        | ok chR =>
          simp only [Prod.mk.injEq, Except.ok.injEq] at hbc
          obtain ⟨rfl, rfl⟩ := hbc
          obtain ⟨logsC2, hC2⟩ := hrec (cname, .dir dEx dListing) (List.mem_cons_self _ _)
            rfl cname (pathStr ++ "/" ++ cname) sub logsC hC M
          obtain ⟨logsR2, hR2⟩ := ih pathStr chR logsR hrec_rest hR M
          refine ⟨logsC2 ++ logsR2, ?_⟩
          rw [buildChildren_cons_dir, child_budget_eq, hC2, hR2, truncateChildren_cons]
    | file fEx fStat =>
      rw [buildChildren_cons_file] at hbc
      rcases hR : buildChildren fmtTime pathStr (-1) hr rest with ⟨resR, logsR⟩
      rw [hR] at hbc
      cases resR with
      | error err => simp at hbc
      | ok chR =>
        simp only [Prod.mk.injEq, Except.ok.injEq] at hbc
        obtain ⟨rfl, rfl⟩ := hbc
        obtain ⟨logsR2, hR2⟩ := ih pathStr chR logsR hrec_rest hR M
        refine ⟨(get_file_info fmtTime (pathStr ++ "/" ++ cname) fEx fStat hr).2 ++ logsR2, ?_⟩
        rw [buildChildren_cons_file, hR2, truncateChildren_cons]
        simp [truncateNode]
    | special ex =>
      rw [buildChildren_cons_special] at hbc
      rcases hR : buildChildren fmtTime pathStr (-1) hr rest with ⟨resR, logsR⟩
      rw [hR] at hbc
      cases resR with
      | error err => simp at hbc
      | ok chR =>
        simp only [Prod.mk.injEq, Except.ok.injEq] at hbc
        obtain ⟨rfl, rfl⟩ := hbc
        obtain ⟨logsR2, hR2⟩ := ih pathStr chR logsR hrec_rest hR M
        refine ⟨⟨.debug, "Skipping non-file, non-dir entry: " ++ (pathStr ++ "/" ++ cname)⟩
          :: logsR2, ?_⟩
        rw [buildChildren_cons_special, hR2]

theorem c3_truncate_main (fmtTime : Int → String) (hr : Bool) (e : FSEntry) :
    ∀ (name pathStr : String) (t : Node) (logs : List LogMsg),
    e.isDir = true →
    get_dir_tree fmtTime name pathStr e (-1) hr = (.ok t, logs) →
    ∀ N : Nat, ∃ logs2,
      get_dir_tree fmtTime name pathStr e (N : Int) hr = (.ok (truncateNode N t), logs2) := by
  induction e using FSEntry.inductionOn with
  | hfile ex st => intro name pathStr t logs hdir; simp [FSEntry.isDir] at hdir
  | hspec ex => intro name pathStr t logs hdir; simp [FSEntry.isDir] at hdir
  | hdirErr ex k =>
    intro name pathStr t logs _ h N
    cases ex with
    | false =>
      rw [get_dir_tree_gone fmtTime name pathStr (.dir false (.error k)) (-1) hr
        (by norm_num) rfl] at h
      simp at h
    | true =>
      cases k with
      | other =>
        rw [get_dir_tree_dir_oserr fmtTime name pathStr (-1) hr (by norm_num)
          (by norm_num)] at h
        simp at h
      | permission =>
        rw [get_dir_tree_dir_perm fmtTime name pathStr (-1) hr (by norm_num)
          (by norm_num)] at h
        simp only [Prod.mk.injEq, Except.ok.injEq] at h
        obtain ⟨rfl, rfl⟩ := h
        match N with
        | 0 =>
          exact ⟨[], by rw [show ((0 : Nat) : Int) = 0 from rfl, get_dir_tree_dir_zero,
            truncateNode_zero_dir]⟩
        | M + 1 =>
          refine ⟨[⟨.warning, "Permission denied: " ++ pathStr⟩], ?_⟩
          rw [get_dir_tree_dir_perm fmtTime name pathStr ((M + 1 : Nat) : Int) hr
            (by omega) (by omega), truncateNode_dir_nil]
  | hdirOk ex l ihl =>
    intro name pathStr t logs _ h N
    cases ex with
    | false =>
      rw [get_dir_tree_gone fmtTime name pathStr (.dir false (.ok l)) (-1) hr
        (by norm_num) rfl] at h
      simp at h
    | true =>
      rw [get_dir_tree_dir_ok fmtTime name pathStr l (-1) hr (by norm_num)
        (by norm_num)] at h
      rcases hB : buildChildren fmtTime pathStr (-1) hr (sortEntries l) with ⟨resB, logsB⟩
      rw [hB] at h
      cases resB with
      | error err => simp at h
      | ok ch =>
        simp only [Prod.mk.injEq, Except.ok.injEq] at h
        obtain ⟨rfl, rfl⟩ := h
        match N with
        | 0 =>
          exact ⟨[], by rw [show ((0 : Nat) : Int) = 0 from rfl, get_dir_tree_dir_zero,
            truncateNode_zero_dir]⟩
        | M + 1 =>
          have hrec : ∀ p ∈ sortEntries l, p.2.isDir = true →
              ∀ (name2 cpath : String) (t2 : Node) (logsE : List LogMsg),
              get_dir_tree fmtTime name2 cpath p.2 (-1) hr = (.ok t2, logsE) →
              ∀ N2 : Nat, ∃ logs2, get_dir_tree fmtTime name2 cpath p.2 (N2 : Int) hr =
                (.ok (truncateNode N2 t2), logs2) := by
            intro p hp hpdir name2 cpath t2 logsE hE N2
            exact ihl p (mem_sortEntries.mp hp) name2 cpath t2 logsE hpdir hE N2
          obtain ⟨logs2, h2⟩ :=
            c3_children_truncate fmtTime hr (sortEntries l) pathStr ch logsB hrec hB M
          refine ⟨logs2, ?_⟩
          rw [get_dir_tree_dir_ok fmtTime name pathStr l ((M + 1 : Nat) : Int) hr
            (by omega) (by omega)]
          rw [show ((M + 1 : Nat) : Int) = (M : Int) + 1 from by push_cast; ring, h2]
          simp [truncateNode, truncateChildren]

/-- C3: the depth law.  First, depth 0 on an existing directory returns the
empty node.  Second, for every `N ≥ 0`, if the unlimited scan (`depth = -1`)
of a directory returns the tree `t`, then the scan with budget `N` returns
exactly `t` truncated at `N` directory levels: the same top `N` levels, with
directories lying deeper present as keys but mapped to empty nodes, and
file metadata never truncated.  (Warnings may differ — listings below the
cut are not touched — so only the trees are compared.) -/
theorem c3_depth_law :
    (∀ (fmtTime : Int → String) (name pathStr : String)
        (listing : Except OSErrKind (List (String × FSEntry))) (hr : Bool),
      get_dir_tree fmtTime name pathStr (.dir true listing) 0 hr =
        (.ok (.dirNode []), [])) ∧
    (∀ (fmtTime : Int → String) (name pathStr : String) (e : FSEntry) (hr : Bool)
        (t : Node) (logs : List LogMsg) (N : Nat),
      e.isDir = true →
      get_dir_tree fmtTime name pathStr e (-1) hr = (.ok t, logs) →
      ∃ logs2, get_dir_tree fmtTime name pathStr e (N : Int) hr =
        (.ok (truncateNode N t), logs2)) := by
  constructor
  · intro fmtTime name pathStr listing hr
    exact get_dir_tree_dir_zero fmtTime name pathStr listing hr
  · intro fmtTime name pathStr e hr t logs N hdir h
    exact c3_truncate_main fmtTime hr e name pathStr t logs hdir h N

/-- C3 (witness): a directory holding a subdirectory with one file, scanned
unlimited and then with budget 1: the budget-1 tree is the truncation of the
full tree (the subdirectory stays as a key mapped to an empty node). -/
theorem c3_depth_law_witness :
    ∃ logs2,
      get_dir_tree (fun _ => "") "r" "/r"
          (.dir true (.ok [("sub", .dir true (.ok [("f.txt", .file true (.ok ⟨1, 2⟩))]))]))
          ((1 : Nat) : Int) false =
        (.ok (truncateNode 1
          (.dirNode [("sub", .dirNode [("f.txt",
            .fileNode [("size", .jint 1), ("modified_time", .jfloat 2)])])])), logs2) := by
  refine c3_depth_law.2 (fun _ => "") "r" "/r"
    (.dir true (.ok [("sub", .dir true (.ok [("f.txt", .file true (.ok ⟨1, 2⟩))]))]))
    false _ [] 1 rfl ?_
  rw [get_dir_tree_dir_ok _ _ _ _ _ _ (by norm_num) (by norm_num)]
  have hs1 : sortEntries [("sub", FSEntry.dir true (.ok [("f.txt",
      FSEntry.file true (.ok ⟨1, 2⟩))]))] =
      [("sub", FSEntry.dir true (.ok [("f.txt", FSEntry.file true (.ok ⟨1, 2⟩))]))] := by
    simp [sortEntries, insertSorted]
  rw [hs1, buildChildren_cons_dir,
    show (if (-1 : Int) > 0 then (-1 : Int) - 1 else -1) = -1 from by norm_num]
  rw [get_dir_tree_dir_ok _ _ _ _ _ _ (by norm_num) (by norm_num)]
  have hs2 : sortEntries [("f.txt", FSEntry.file true (.ok ⟨1, 2⟩))] =
      [("f.txt", FSEntry.file true (.ok ⟨1, 2⟩))] := by
    simp [sortEntries, insertSorted]
  rw [hs2, buildChildren_cons_file]
  simp [buildChildren_nil, get_file_info]

/-! ## `dir_tree_to_json` (source lines 275-277)

`json.dumps(tree, indent=4, ensure_ascii=False)`: 4-space indentation, keys
and string values quoted with the JSON escapes Python applies (`\"`, `\\`,
`\b`, `\t`, `\n`, `\f`, `\r`, and `\u00xx` for the remaining control
characters; other characters pass through verbatim under
`ensure_ascii=False`), integers in decimal, floats as the integral part
followed by `.0` (exact for the integral timestamps of this model), an
empty dict as `{}`, and a non-empty dict as one `"key": value` line per
entry, comma-separated, inside braces on their own lines. -/

/-- Decimal digit characters of `n`, most significant first, in front of
`acc`. -/
def natCharsAux (n : Nat) (acc : List Char) : List Char :=
  let d := Char.ofNat (48 + n % 10)
  if n < 10 then d :: acc
  else natCharsAux (n / 10) (d :: acc)
termination_by n
decreasing_by
  exact Nat.div_lt_self (by omega) (by norm_num)

def natChars (n : Nat) : List Char := natCharsAux n []

/-- Decimal rendering of an integer: minus sign, then digits. -/
def intChars (i : Int) : List Char :=
  if i < 0 then '-' :: natChars i.natAbs else natChars i.natAbs

/-- Lower-case hexadecimal digit, as Python's `\u%04x` produces. -/
def hexDigit (n : Nat) : Char :=
  if n < 10 then Char.ofNat (48 + n) else Char.ofNat (87 + n)

/-- JSON escaping of one character, as `json.dumps(.., ensure_ascii=False)`
performs it. -/
def escapeChar (c : Char) : List Char :=
  if c = '"' then ['\\', '"']
  else if c = '\\' then ['\\', '\\']
  else if c = '\n' then ['\\', 'n']
  else if c = '\t' then ['\\', 't']
  else if c = '\r' then ['\\', 'r']
  else if c.toNat = 8 then ['\\', 'b']
  else if c.toNat = 12 then ['\\', 'f']
  else if c.toNat < 32 then ['\\', 'u', '0', '0', hexDigit (c.toNat / 16), hexDigit (c.toNat % 16)]
  else [c]

/-- A JSON string literal: quotes around the escaped characters. -/
def quoteString (s : String) : List Char :=
  '"' :: (s.data.flatMap escapeChar ++ ['"'])

/-- The indentation in front of a line at nesting level `n`. -/
def pad (n : Nat) : List Char := List.replicate (4 * n) ' '

mutual

/-- Serialise a value at nesting level `level`, as `json.dumps` with
`indent=4` lays it out. -/
def dumpVal (level : Nat) : JVal → List Char
  | .jint n => natChars n
  | .jfloat t => intChars t ++ ['.', '0']
  | .jstr s => quoteString s
  | .jdict [] => ['{', '}']
  | .jdict (p :: ps) =>
      '{' :: '\n' :: (dumpEntries level (p :: ps) ++ '\n' :: (pad level ++ ['}']))
termination_by v => sizeOf v
decreasing_by
  all_goals simp_arith

/-- The `"key": value` lines of a non-empty dict, comma-separated. -/
def dumpEntries (level : Nat) : List (String × JVal) → List Char
  | [] => []
  | [(k, v)] => pad (level + 1) ++ quoteString k ++ ':' :: ' ' :: dumpVal (level + 1) v
  | (k, v) :: p :: rest =>
      pad (level + 1) ++ quoteString k ++ ':' :: ' ' ::
        (dumpVal (level + 1) v ++ ',' :: '\n' :: dumpEntries level (p :: rest))
termination_by l => sizeOf l
decreasing_by
  all_goals simp_arith

end

/-- `dir_tree_to_json` (source lines 275-277), on the erased dict value. -/
def dir_tree_to_json (tree : JVal) : String := String.mk (dumpVal 0 tree)

/-! ## An order-preserving parser for the emitted document

A recursive-descent parser for the grammar `dir_tree_to_json` emits,
returning dict entries in textual order.  Recursion is on an explicit fuel,
so the parser is structurally total. -/

def isWsChar (c : Char) : Bool := c = ' ' || c = '\n' || c = '\t' || c = '\r'

def skipWs : List Char → List Char
  | [] => []
  | c :: rest => if isWsChar c then skipWs rest else c :: rest

def isDigitChar (c : Char) : Bool := 48 ≤ c.toNat && c.toNat ≤ 57

/-- Split off the leading run of decimal digits. -/
def takeDigits : List Char → List Char × List Char
  | [] => ([], [])
  | c :: rest =>
      if isDigitChar c then
        let p := takeDigits rest
        (c :: p.1, p.2)
      else ([], c :: rest)

def digitsToNat (ds : List Char) : Nat :=
  ds.foldl (fun a c => a * 10 + (c.toNat - 48)) 0

def hexValue (c : Char) : Option Nat :=
  if 48 ≤ c.toNat ∧ c.toNat ≤ 57 then some (c.toNat - 48)
  else if 97 ≤ c.toNat ∧ c.toNat ≤ 102 then some (c.toNat - 87)
  else if 65 ≤ c.toNat ∧ c.toNat ≤ 70 then some (c.toNat - 55)
  else none

def unescapeChar (c : Char) : Option Char :=
  if c = '"' then some '"'
  else if c = '\\' then some '\\'
  else if c = '/' then some '/'
  else if c = 'n' then some '\n'
  else if c = 't' then some '\t'
  else if c = 'r' then some '\r'
  else if c = 'b' then some (Char.ofNat 8)
  else if c = 'f' then some (Char.ofNat 12)
  else none

/-- Parse a string body after the opening quote, unescaping as it goes. -/
def parseStringBody (acc : List Char) : List Char → Option (String × List Char)
  | [] => none
  | c :: rest =>
    if c = '"' then some (String.mk acc.reverse, rest)
    else if c = '\\' then
      match rest with
      | [] => none
      | e :: rest2 =>
        if e = 'u' then
          match rest2 with
          | a :: b :: c2 :: d :: rest3 =>
            match hexValue a, hexValue b, hexValue c2, hexValue d with
            | some va, some vb, some vc, some vd =>
                parseStringBody (Char.ofNat (((va * 16 + vb) * 16 + vc) * 16 + vd) :: acc) rest3
            | _, _, _, _ => none
          | _ => none
        else
          match unescapeChar e with
          | some ch => parseStringBody (ch :: acc) rest2
          | none => none
    else parseStringBody (c :: acc) rest

/-- Parse a number of the emitted grammar: an optional minus sign, digits,
and an optional `.0` marking a float. -/
def parseNumber (cs : List Char) : Option (JVal × List Char) :=
  match cs with
  | [] => none
  | c :: rest =>
    if c = '-' then
      let p := takeDigits rest
      if p.1.isEmpty then none
      else
        match p.2 with
        | d :: r1 =>
          if d = '.' then
            match r1 with
            | z :: r2 => if z = '0' then some (.jfloat (-(digitsToNat p.1 : Int)), r2) else none
            | [] => none
          else none
        | [] => none
    else
      let p := takeDigits (c :: rest)
      if p.1.isEmpty then none
      else
        match p.2 with
        | d :: r1 =>
          if d = '.' then
            match r1 with
            | z :: r2 => if z = '0' then some (.jfloat (digitsToNat p.1 : Int), r2) else none
            | [] => none
          else some (.jint (digitsToNat p.1), d :: r1)
        | [] => some (.jint (digitsToNat p.1), [])

mutual

def parseVal (fuel : Nat) (cs : List Char) : Option (JVal × List Char) :=
  match fuel with
  | 0 => none
  | fuel + 1 =>
    match skipWs cs with
    | [] => none
    | c :: r =>
      if c = '{' then
        match skipWs r with
        | [] => none
        | c2 :: r2 =>
          if c2 = '}' then some (.jdict [], r2)
          else
            match parseEntries fuel (c2 :: r2) with
            | some (es, r3) => some (.jdict es, r3)
            | none => none
      else if c = '"' then
        match parseStringBody [] r with
        | some (s, r2) => some (.jstr s, r2)
        | none => none
      else parseNumber (c :: r)

def parseEntries (fuel : Nat) (cs : List Char) : Option (List (String × JVal) × List Char) :=
  match fuel with
  | 0 => none
  | fuel + 1 =>
    match skipWs cs with
    | [] => none
    | c :: r =>
      if c = '"' then
        match parseStringBody [] r with
        | none => none
        | some (k, r1) =>
          match skipWs r1 with
          | [] => none
          | c2 :: r2 =>
            if c2 = ':' then
              match parseVal fuel r2 with
              | none => none
              | some (v, r3) =>
                match skipWs r3 with
                | [] => none
                | c3 :: r4 =>
                  if c3 = ',' then
                    match parseEntries fuel r4 with
                    | some (es, r5) => some ((k, v) :: es, r5)
                    | none => none
                  else if c3 = '}' then some ([(k, v)], r4)
                  else none
            else none
      else none

end

/-- Parse a complete document: one value and nothing but whitespace after. -/
def parseJson (s : String) : Option JVal :=
  match parseVal (s.data.length + 1) s.data with
  | some (v, rest) => if skipWs rest = [] then some v else none
  | none => none

/-! ## Round-trip: digits -/

theorem digitChar_toNat {k : Nat} (h : k < 10) : (Char.ofNat (48 + k)).toNat = 48 + k := by
  interval_cases k <;> decide

theorem digitChar_isDigit {k : Nat} (h : k < 10) : isDigitChar (Char.ofNat (48 + k)) = true := by
  interval_cases k <;> decide

theorem natCharsAux_acc (n : Nat) : ∀ acc : List Char,
    natCharsAux n acc = natCharsAux n [] ++ acc := by
  induction n using Nat.strongRecOn with
  | _ n ih =>
    intro acc
    conv_lhs => rw [natCharsAux]
    conv_rhs => rw [natCharsAux]
    by_cases h : n < 10
    · simp [h]
    · simp only [if_neg h]
      rw [ih (n / 10) (Nat.div_lt_self (by omega) (by norm_num)),
          ih (n / 10) (Nat.div_lt_self (by omega) (by norm_num)) [Char.ofNat (48 + n % 10)]]
      simp

theorem natChars_step (n : Nat) :
    natChars n = (if n < 10 then [] else natChars (n / 10)) ++ [Char.ofNat (48 + n % 10)] := by
  rw [natChars, natCharsAux]
  by_cases h : n < 10
  · simp [h]
  · rw [if_neg h, if_neg h, natCharsAux_acc]
    rfl

theorem natChars_ne_nil (n : Nat) : natChars n ≠ [] := by
  rw [natChars_step]
  simp

theorem natChars_digits (n : Nat) : ∀ c ∈ natChars n, isDigitChar c = true := by
  induction n using Nat.strongRecOn with
  | _ n ih =>
    intro c hc
    rw [natChars_step] at hc
    rcases List.mem_append.mp hc with h | h
    · by_cases h10 : n < 10
      · simp [h10] at h
      · exact ih (n / 10) (Nat.div_lt_self (by omega) (by norm_num)) c (by simpa [h10] using h)
    · rw [List.mem_singleton] at h
      subst h
      exact digitChar_isDigit (Nat.mod_lt _ (by norm_num))

theorem digitsToNat_natChars (n : Nat) : digitsToNat (natChars n) = n := by
  suffices H : ∀ n acc : Nat,
      (natChars n).foldl (fun a c => a * 10 + (c.toNat - 48)) acc = acc * 10 ^ (natChars n).length + n by
    have h := H n 0
    rw [digitsToNat]
    omega
  intro n
  induction n using Nat.strongRecOn with
  | _ n ih =>
    intro acc
    rw [natChars_step]
    by_cases h : n < 10
    · simp [h, digitChar_toNat (show n % 10 < 10 from Nat.mod_lt _ (by norm_num))]
    · rw [if_neg h, List.foldl_append, ih (n / 10) (Nat.div_lt_self (by omega) (by norm_num))]
      simp only [List.foldl_cons, List.foldl_nil, List.length_append, List.length_singleton]
      rw [digitChar_toNat (show n % 10 < 10 from Nat.mod_lt _ (by norm_num))]
      have hmod : n / 10 * 10 + n % 10 = n := by omega
      calc (acc * 10 ^ (natChars (n / 10)).length + n / 10) * 10 + (48 + n % 10 - 48)
          = acc * (10 ^ (natChars (n / 10)).length * 10) + (n / 10 * 10 + n % 10) := by
            ring_nf
            omega
        _ = acc * 10 ^ ((natChars (n / 10)).length + 1) + n := by rw [hmod, pow_succ]

/-! ## Round-trip: numbers -/

theorem takeDigits_nil : takeDigits [] = ([], []) := rfl

theorem takeDigits_not_digit {c : Char} {t : List Char} (h : isDigitChar c = false) :
    takeDigits (c :: t) = ([], c :: t) := by
  simp [takeDigits, h]

theorem takeDigits_run : ∀ (ds : List Char), (∀ c ∈ ds, isDigitChar c = true) →
    ∀ (rest : List Char), takeDigits rest = ([], rest) →
    takeDigits (ds ++ rest) = (ds, rest) := by
  intro ds
  induction ds with
  | nil => intro _ rest hrest; simpa using hrest
  | cons c t ih =>
    intro hds rest hrest
    have hc : isDigitChar c = true := hds c (List.mem_cons_self _ _)
    have ht := ih (fun x hx => hds x (List.mem_cons_of_mem _ hx)) rest hrest
    simp [takeDigits, hc, ht]

theorem digit_ne_minus {c : Char} (h : isDigitChar c = true) : ¬ c = '-' := by
  intro hc
  subst hc
  simp [isDigitChar] at h

theorem dot_not_digit : isDigitChar '.' = false := by decide

theorem natChars_head (n : Nat) :
    ∃ c t, natChars n = c :: t ∧ isDigitChar c = true := by
  rcases hn : natChars n with _ | ⟨c, t⟩
  · exact absurd hn (natChars_ne_nil n)
  · exact ⟨c, t, rfl, natChars_digits n c (hn ▸ List.mem_cons_self _ _)⟩

theorem parseNumber_nat (n : Nat) (rest : List Char)
    (hrest : rest = [] ∨ (isDigitChar rest.head! = false ∧ rest.head! ≠ '.')) :
    parseNumber (natChars n ++ rest) = some (.jint n, rest) := by
  obtain ⟨c0, t0, h0, hc0⟩ := natChars_head n
  have hstop : takeDigits rest = ([], rest) := by
    rcases hrest with rfl | ⟨hd, _⟩
    · rfl
    · cases rest with
      | nil => rfl
      | cons r rr => exact takeDigits_not_digit (by simpa using hd)
  have htd : takeDigits (natChars n ++ rest) = (natChars n, rest) :=
    takeDigits_run (natChars n) (natChars_digits n) rest hstop
  rw [h0] at htd
  rw [h0, List.cons_append]
  simp only [parseNumber, if_neg (digit_ne_minus hc0)]
  rw [List.cons_append] at htd
  simp only [htd]
  rw [if_neg (by simp [natChars_ne_nil, h0 ▸ natChars_ne_nil n])]
  rcases hrest with rfl | ⟨hd, hdot⟩
  · simp [← h0, digitsToNat_natChars]
  · cases rest with
    | nil => simp [← h0, digitsToNat_natChars]
    | cons r rr =>
      simp only [List.head!] at hdot
      simp [if_neg hdot, ← h0, digitsToNat_natChars]

theorem parseNumber_float (t : Int) (rest : List Char) :
    parseNumber (intChars t ++ '.' :: '0' :: rest) = some (.jfloat t, rest) := by
  have hstop : takeDigits ('.' :: '0' :: rest) = ([], '.' :: '0' :: rest) :=
    takeDigits_not_digit dot_not_digit
  have htd : takeDigits (natChars t.natAbs ++ '.' :: '0' :: rest) =
      (natChars t.natAbs, '.' :: '0' :: rest) :=
    takeDigits_run (natChars t.natAbs) (natChars_digits t.natAbs) _ hstop
  obtain ⟨c0, t0, h0, hc0⟩ := natChars_head t.natAbs
  have hdn : digitsToNat (c0 :: t0) = t.natAbs := by
    rw [← h0, digitsToNat_natChars]
  rw [h0, List.cons_append] at htd
  by_cases ht : t < 0
  · rw [intChars, if_pos ht, h0, List.cons_append, List.cons_append]
    rw [parseNumber.eq_def]
    simp [htd, hdn, -Int.natCast_natAbs]
    omega
  · rw [intChars, if_neg ht, h0, List.cons_append]
    rw [parseNumber.eq_def]
    simp [htd, hdn, digit_ne_minus hc0]
    omega

/-! ## Round-trip: strings -/

theorem hexValue_hexDigit {k : Nat} (h : k < 16) : hexValue (hexDigit k) = some k := by
  interval_cases k <;> decide

theorem String.mk_data (s : String) : String.mk s.data = s := by
  cases s
  rfl

theorem parseStringBody_escape (c : Char) (acc rest : List Char) :
    parseStringBody acc (escapeChar c ++ rest) = parseStringBody (c :: acc) rest := by
  by_cases h1 : c = '"'
  · subst h1
    rw [parseStringBody.eq_def]
    simp +decide [escapeChar, unescapeChar]
  · by_cases h2 : c = '\\'
    · subst h2
      rw [parseStringBody.eq_def]
      simp +decide [escapeChar, unescapeChar]
    · by_cases h3 : c = '\n'
      · subst h3
        rw [parseStringBody.eq_def]
        simp +decide [escapeChar, unescapeChar]
      · by_cases h4 : c = '\t'
        · subst h4
          rw [parseStringBody.eq_def]
          simp +decide [escapeChar, unescapeChar]
        · by_cases h5 : c = '\r'
          · subst h5
            rw [parseStringBody.eq_def]
            simp +decide [escapeChar, unescapeChar]
          · by_cases h6 : c.toNat = 8
            · have hc : c = Char.ofNat 8 := by rw [← h6, Char.ofNat_toNat]
              subst hc
              rw [parseStringBody.eq_def]
              simp +decide [escapeChar, unescapeChar]
            · by_cases h7 : c.toNat = 12
              · have hc : c = Char.ofNat 12 := by rw [← h7, Char.ofNat_toNat]
                subst hc
                rw [parseStringBody.eq_def]
                simp +decide [escapeChar, unescapeChar]
              · by_cases h8 : c.toNat < 32
                · rw [escapeChar, if_neg h1, if_neg h2, if_neg h3, if_neg h4, if_neg h5,
                    if_neg h6, if_neg h7, if_pos h8]
                  rw [List.cons_append, List.cons_append, List.cons_append, List.cons_append,
                    List.cons_append, List.cons_append, List.nil_append]
                  rw [parseStringBody.eq_def]
                  have h16a : c.toNat / 16 < 16 := by omega
                  have h16b : c.toNat % 16 < 16 := by omega
                  simp +decide [hexValue_hexDigit h16a, hexValue_hexDigit h16b,
                    show hexValue '0' = some 0 from by decide]
                  rw [show c.toNat / 16 * 16 + c.toNat % 16 = c.toNat from by omega,
                    Char.ofNat_toNat]
                · rw [escapeChar, if_neg h1, if_neg h2, if_neg h3, if_neg h4, if_neg h5,
                    if_neg h6, if_neg h7, if_neg h8]
                  rw [List.singleton_append, parseStringBody.eq_def]
                  simp [h1, h2]

theorem parseStringBody_flatMap : ∀ (cs acc rest : List Char),
    parseStringBody acc (cs.flatMap escapeChar ++ '"' :: rest) =
      some (String.mk (acc.reverse ++ cs), rest) := by
  intro cs
  induction cs with
  | nil =>
    intro acc rest
    rw [List.flatMap_nil, List.nil_append, parseStringBody.eq_def]
    simp
  | cons c t ih =>
    intro acc rest
    rw [List.flatMap_cons, List.append_assoc, parseStringBody_escape, ih]
    simp

theorem parseStringBody_quote (s : String) (rest : List Char) :
    parseStringBody [] (s.data.flatMap escapeChar ++ '"' :: rest) = some (s, rest) := by
  rw [parseStringBody_flatMap]
  simp [String.mk_data]

/-! ## Round-trip: whitespace and heads -/

theorem skipWs_ws_cons {c : Char} (h : isWsChar c = true) (x : List Char) :
    skipWs (c :: x) = skipWs x := by
  simp [skipWs, h]

theorem skipWs_not_ws {c : Char} (h : isWsChar c = false) (x : List Char) :
    skipWs (c :: x) = c :: x := by
  simp [skipWs, h]

theorem skipWs_replicate (m : Nat) (x : List Char) :
    skipWs (List.replicate m ' ' ++ x) = skipWs x := by
  induction m with
  | zero => rfl
  | succ k ih =>
    rw [List.replicate_succ, List.cons_append, skipWs_ws_cons (by decide), ih]

theorem skipWs_pad (k : Nat) (x : List Char) : skipWs (pad k ++ x) = skipWs x :=
  skipWs_replicate (4 * k) x

theorem skipWs_skipWs : ∀ cs : List Char, skipWs (skipWs cs) = skipWs cs := by
  intro cs
  induction cs with
  | nil => rfl
  | cons c rest ih =>
    by_cases h : isWsChar c = true
    · rw [skipWs_ws_cons h, ih]
    · rw [skipWs_not_ws (by simpa using h), skipWs_not_ws (by simpa using h)]

theorem digit_not_ws {c : Char} (h : isDigitChar c = true) : isWsChar c = false := by
  by_contra hw
  rw [Bool.not_eq_false] at hw
  simp only [isWsChar, Bool.or_eq_true, decide_eq_true_eq] at hw
  rcases hw with ((rfl | rfl) | rfl) | rfl <;> simp [isDigitChar] at h

/-- Every serialised value starts with a character that is neither
whitespace nor a closing brace. -/
theorem dumpVal_head (level : Nat) (v : JVal) :
    ∃ c t, dumpVal level v = c :: t ∧ isWsChar c = false ∧ c ≠ '}' := by
  cases v with
  | jint n =>
    obtain ⟨c0, t0, h0, hc0⟩ := natChars_head n
    refine ⟨c0, t0, by rw [dumpVal, h0], digit_not_ws hc0, ?_⟩
    intro hc
    subst hc
    simp [isDigitChar] at hc0
  | jfloat t =>
    by_cases ht : t < 0
    · refine ⟨'-', natChars t.natAbs ++ ['.', '0'], ?_, by decide, by decide⟩
      rw [dumpVal, intChars, if_pos ht]
      rfl
    · obtain ⟨c0, t0, h0, hc0⟩ := natChars_head t.natAbs
      refine ⟨c0, t0 ++ ['.', '0'], ?_, digit_not_ws hc0, ?_⟩
      · rw [dumpVal, intChars, if_neg ht, h0]
        rfl
      · intro hc
        subst hc
        simp [isDigitChar] at hc0
  | jstr s =>
    exact ⟨'"', s.data.flatMap escapeChar ++ ['"'], by rw [dumpVal]; rfl, by decide, by decide⟩
  | jdict es =>
    cases es with
    | nil => exact ⟨'{', ['}'], by rw [dumpVal], by decide, by decide⟩
    | cons p ps =>
      exact ⟨'{', '\n' :: (dumpEntries level (p :: ps) ++ '\n' :: (pad level ++ ['}'])),
        by rw [dumpVal], by decide, by decide⟩

theorem parseVal_ws_congr (fuel : Nat) {a b : List Char} (h : skipWs a = skipWs b) :
    parseVal fuel a = parseVal fuel b := by
  cases fuel with
  | zero => rfl
  | succ f => rw [parseVal, parseVal, h]

theorem parseEntries_ws_congr (fuel : Nat) {a b : List Char} (h : skipWs a = skipWs b) :
    parseEntries fuel a = parseEntries fuel b := by
  cases fuel with
  | zero => rfl
  | succ f => rw [parseEntries, parseEntries, h]

/-- A remainder that cannot extend a serialised value: empty, or starting
with the separator the serialiser emits next (a comma or a newline). -/
def okAfter : List Char → Bool
  | [] => true
  | c :: _ => c = ',' || c = '\n'

theorem okAfter_nl (x : List Char) : okAfter ('\n' :: x) = true := by
  simp [okAfter]

theorem okAfter_comma (x : List Char) : okAfter (',' :: x) = true := by
  simp [okAfter]

theorem okAfter_num {rest : List Char} (h : okAfter rest = true) :
    rest = [] ∨ (isDigitChar rest.head! = false ∧ rest.head! ≠ '.') := by
  cases rest with
  | nil => exact Or.inl rfl
  | cons c x =>
    right
    simp only [okAfter, Bool.or_eq_true, decide_eq_true_eq] at h
    rcases h with rfl | rfl <;>
      exact ⟨by simp [List.head!, isDigitChar], by simp [List.head!]⟩

theorem digit_ne_lbrace {c : Char} (h : isDigitChar c = true) : ¬ c = '{' := by
  intro hc
  subst hc
  simp [isDigitChar] at h

theorem digit_ne_quote {c : Char} (h : isDigitChar c = true) : ¬ c = '"' := by
  intro hc
  subst hc
  simp [isDigitChar] at h

theorem quoteString_length (s : String) : 2 ≤ (quoteString s).length := by
  simp [quoteString]

theorem parseVal_step (f : Nat) (c : Char) (r : List Char) (h : isWsChar c = false) :
    parseVal (f + 1) (c :: r) =
      if c = '{' then
        match skipWs r with
        | [] => none
        | c2 :: r2 =>
          if c2 = '}' then some (.jdict [], r2)
          else
            match parseEntries f (c2 :: r2) with
            | some (es, r3) => some (.jdict es, r3)
            | none => none
      else if c = '"' then
        match parseStringBody [] r with
        | some (s, r2) => some (.jstr s, r2)
        | none => none
      else parseNumber (c :: r) := by
  rw [parseVal, skipWs_not_ws h]

theorem parseEntries_step (f : Nat) (c : Char) (r : List Char) (h : isWsChar c = false) :
    parseEntries (f + 1) (c :: r) =
      if c = '"' then
        match parseStringBody [] r with
        | none => none
        | some (k, r1) =>
          match skipWs r1 with
          | [] => none
          | c2 :: r2 =>
            if c2 = ':' then
              match parseVal f r2 with
              | none => none
              | some (v, r3) =>
                match skipWs r3 with
                | [] => none
                | c3 :: r4 =>
                  if c3 = ',' then
                    match parseEntries f r4 with
                    | some (es, r5) => some ((k, v) :: es, r5)
                    | none => none
                  else if c3 = '}' then some ([(k, v)], r4)
                  else none
            else none
      else none := by
  rw [parseEntries, skipWs_not_ws h]

/-- The serialised entries of a non-empty dict are the indentation, then a
quote, then a tail `B`; skipping whitespace in front lands on the quote. -/
theorem dumpEntries_quote (level : Nat) (k : String) (v : JVal)
    (es : List (String × JVal)) (T : List Char) :
    ∃ B, dumpEntries level ((k, v) :: es) ++ T = pad (level + 1) ++ '"' :: (B ++ T) ∧
      skipWs (dumpEntries level ((k, v) :: es) ++ T) = '"' :: (B ++ T) := by
  have hq : quoteString k = '"' :: (k.data.flatMap escapeChar ++ ['"']) := rfl
  cases es with
  | nil =>
    refine ⟨(k.data.flatMap escapeChar ++ ['"']) ++ ':' :: ' ' :: dumpVal (level + 1) v, ?_, ?_⟩
    · rw [dumpEntries, hq]
      simp [List.append_assoc]
    · rw [dumpEntries, hq]
      simp only [List.append_assoc, List.cons_append]
      rw [skipWs_pad, skipWs_not_ws (by decide)]
  | cons p ps =>
    refine ⟨(k.data.flatMap escapeChar ++ ['"']) ++ ':' :: ' ' ::
      (dumpVal (level + 1) v ++ ',' :: '\n' :: dumpEntries level (p :: ps)), ?_, ?_⟩
    · rw [dumpEntries, hq]
      simp [List.append_assoc]
    · rw [dumpEntries, hq]
      simp only [List.append_assoc, List.cons_append]
      rw [skipWs_pad, skipWs_not_ws (by decide)]

theorem parse_dump_main : ∀ fuel : Nat,
    (∀ (v : JVal) (level : Nat) (rest : List Char),
      (dumpVal level v).length < fuel → okAfter rest = true →
      parseVal fuel (dumpVal level v ++ rest) = some (v, rest)) ∧
    (∀ (k : String) (v : JVal) (es : List (String × JVal)) (level : Nat) (rest : List Char),
      (dumpEntries level ((k, v) :: es)).length < fuel →
      parseEntries fuel
        (dumpEntries level ((k, v) :: es) ++ '\n' :: (pad level ++ '}' :: rest)) =
        some ((k, v) :: es, rest)) := by
  intro fuel
  induction fuel using Nat.strongRecOn with
  | _ fuel ih =>
    cases fuel with
    | zero =>
      constructor
      · intro v level rest hlen _
        omega
      · intro k v es level rest hlen
        omega
    | succ f =>
      constructor
      · intro v level rest hlen hafter
        match v with
        | .jint n =>
          obtain ⟨c0, t0, h0, hc0⟩ := natChars_head n
          rw [show dumpVal level (JVal.jint n) = natChars n from by rw [dumpVal]] at hlen ⊢
          rw [h0, List.cons_append, parseVal_step f c0 _ (digit_not_ws hc0)]
          rw [if_neg (digit_ne_lbrace hc0), if_neg (digit_ne_quote hc0)]
          rw [← List.cons_append, ← h0]
          exact parseNumber_nat n rest (okAfter_num hafter)
        | .jfloat t =>
          rw [show dumpVal level (JVal.jfloat t) = intChars t ++ ['.', '0'] from
            by rw [dumpVal]] at hlen ⊢
          rw [List.append_assoc, show (['.', '0'] : List Char) ++ rest = '.' :: '0' :: rest
            from rfl]
          by_cases ht : t < 0
          · rw [intChars, if_pos ht, List.cons_append,
              parseVal_step f '-' _ (by decide), if_neg (by decide), if_neg (by decide),
              ← List.cons_append,
              show ('-' :: natChars t.natAbs : List Char) = intChars t from
                by rw [intChars, if_pos ht]]
            exact parseNumber_float t rest
          · obtain ⟨c0, t0, h0, hc0⟩ := natChars_head t.natAbs
            rw [intChars, if_neg ht, h0, List.cons_append,
              parseVal_step f c0 _ (digit_not_ws hc0),
              if_neg (digit_ne_lbrace hc0), if_neg (digit_ne_quote hc0),
              ← List.cons_append, ← h0,
              show natChars t.natAbs = intChars t from by rw [intChars, if_neg ht]]
            exact parseNumber_float t rest
        | .jstr s =>
          rw [show dumpVal level (JVal.jstr s) = quoteString s from by rw [dumpVal]] at hlen ⊢
          rw [quoteString, List.cons_append, parseVal_step f '"' _ (by decide),
            if_neg (by decide), if_pos rfl]
          rw [List.append_assoc, show (['"'] : List Char) ++ rest = '"' :: rest from rfl,
            parseStringBody_quote]
        | .jdict [] =>
          rw [show dumpVal level (JVal.jdict []) = ['{', '}'] from by rw [dumpVal]] at hlen ⊢
          rw [show (['{', '}'] : List Char) ++ rest = '{' :: '}' :: rest from rfl,
            parseVal_step f '{' _ (by decide), if_pos rfl,
            skipWs_not_ws (by decide)]
          simp
        | .jdict ((k, v) :: es) =>
          rw [show dumpVal level (JVal.jdict ((k, v) :: es)) =
              '{' :: '\n' :: (dumpEntries level ((k, v) :: es) ++ '\n' :: (pad level ++ ['}']))
              from by rw [dumpVal]] at hlen ⊢
          have htext : ('{' :: '\n' ::
              (dumpEntries level ((k, v) :: es) ++ '\n' :: (pad level ++ ['}']))) ++ rest =
              '{' :: '\n' ::
                (dumpEntries level ((k, v) :: es) ++ '\n' :: (pad level ++ '}' :: rest)) := by
            simp [List.append_assoc]
          rw [htext, parseVal_step f '{' _ (by decide), if_pos rfl]
          obtain ⟨B, hB, hskip⟩ :=
            dumpEntries_quote level k v es ('\n' :: (pad level ++ '}' :: rest))
          have hcongr : parseEntries f ('"' :: (B ++ '\n' :: (pad level ++ '}' :: rest))) =
              parseEntries f (dumpEntries level ((k, v) :: es) ++
                '\n' :: (pad level ++ '}' :: rest)) := by
            refine parseEntries_ws_congr f ?_
            rw [hskip, skipWs_not_ws (by decide)]
          have hlenE : (dumpEntries level ((k, v) :: es)).length < f := by
            simp only [List.length_cons, List.length_append, pad, List.length_replicate] at hlen
            omega
          have hrec := (ih f (by omega)).2 k v es level rest hlenE
          rw [skipWs_ws_cons (by decide), hskip]
          simp +decide only [if_neg, hcongr, hrec]
      · intro k v es level rest hlen
        have hq : quoteString k = '"' :: (k.data.flatMap escapeChar ++ ['"']) := rfl
        have hT : skipWs ('\n' :: (pad level ++ '}' :: rest)) = '}' :: rest := by
          rw [skipWs_ws_cons (by decide), skipWs_pad, skipWs_not_ws (by decide)]
        cases es with
        | nil =>
          rw [dumpEntries] at hlen ⊢
          have hlenv : (dumpVal (level + 1) v).length < f := by
            have hq2 := quoteString_length k
            simp only [List.length_append, List.length_cons, pad,
              List.length_replicate] at hlen
            omega
          have hA : (pad (level + 1) ++ quoteString k ++ ':' :: ' ' ::
                dumpVal (level + 1) v) ++ '\n' :: (pad level ++ '}' :: rest) =
              pad (level + 1) ++ ('"' :: ((k.data.flatMap escapeChar ++ ['"']) ++ ':' :: ' ' ::
                (dumpVal (level + 1) v ++ '\n' :: (pad level ++ '}' :: rest)))) := by
            rw [hq]
            simp [List.append_assoc]
          rw [hA]
          have hcongr : parseEntries (f + 1) (pad (level + 1) ++
                ('"' :: ((k.data.flatMap escapeChar ++ ['"']) ++ ':' :: ' ' ::
                  (dumpVal (level + 1) v ++ '\n' :: (pad level ++ '}' :: rest))))) =
              parseEntries (f + 1) ('"' :: ((k.data.flatMap escapeChar ++ ['"']) ++ ':' :: ' ' ::
                (dumpVal (level + 1) v ++ '\n' :: (pad level ++ '}' :: rest)))) := by
            refine parseEntries_ws_congr (f + 1) ?_
            rw [skipWs_pad]
          have hsb : parseStringBody [] ((k.data.flatMap escapeChar ++ ['"']) ++ ':' :: ' ' ::
              (dumpVal (level + 1) v ++ '\n' :: (pad level ++ '}' :: rest))) =
              some (k, ':' :: ' ' ::
                (dumpVal (level + 1) v ++ '\n' :: (pad level ++ '}' :: rest))) := by
            rw [List.append_assoc, show (['"'] : List Char) ++ ':' :: ' ' ::
                (dumpVal (level + 1) v ++ '\n' :: (pad level ++ '}' :: rest)) =
                '"' :: ':' :: ' ' ::
                  (dumpVal (level + 1) v ++ '\n' :: (pad level ++ '}' :: rest)) from rfl]
            exact parseStringBody_quote k _
          have hval : parseVal f (' ' :: (dumpVal (level + 1) v ++
                '\n' :: (pad level ++ '}' :: rest))) =
              some (v, '\n' :: (pad level ++ '}' :: rest)) := by
            rw [parseVal_ws_congr f (skipWs_ws_cons (by decide) _)]
            exact (ih f (by omega)).1 v (level + 1) _ hlenv (okAfter_nl _)
          rw [hcongr, parseEntries_step f '"' _ (by decide)]
          simp +decide only [if_pos, hsb, skipWs_not_ws (show isWsChar ':' = false from
            by decide), hval, hT, if_neg]
        | cons p ps =>
          obtain ⟨k2, v2⟩ := p
          rw [dumpEntries] at hlen ⊢
          have hq2 := quoteString_length k
          have hlenv : (dumpVal (level + 1) v).length < f := by
            simp only [List.length_append, List.length_cons, pad,
              List.length_replicate] at hlen
            omega
          have hlenE2 : (dumpEntries level ((k2, v2) :: ps)).length < f := by
            simp only [List.length_append, List.length_cons, pad,
              List.length_replicate] at hlen
            omega
          have hA : (pad (level + 1) ++ quoteString k ++ ':' :: ' ' ::
                (dumpVal (level + 1) v ++ ',' :: '\n' ::
                  dumpEntries level ((k2, v2) :: ps))) ++
                '\n' :: (pad level ++ '}' :: rest) =
              pad (level + 1) ++ ('"' :: ((k.data.flatMap escapeChar ++ ['"']) ++ ':' :: ' ' ::
                (dumpVal (level + 1) v ++ ',' :: '\n' ::
                  (dumpEntries level ((k2, v2) :: ps) ++
                    '\n' :: (pad level ++ '}' :: rest))))) := by
            rw [hq]
            simp [List.append_assoc]
          rw [hA]
          have hcongr : parseEntries (f + 1) (pad (level + 1) ++
                ('"' :: ((k.data.flatMap escapeChar ++ ['"']) ++ ':' :: ' ' ::
                  (dumpVal (level + 1) v ++ ',' :: '\n' ::
                    (dumpEntries level ((k2, v2) :: ps) ++
                      '\n' :: (pad level ++ '}' :: rest)))))) =
              parseEntries (f + 1) ('"' :: ((k.data.flatMap escapeChar ++ ['"']) ++ ':' :: ' ' ::
                (dumpVal (level + 1) v ++ ',' :: '\n' ::
                  (dumpEntries level ((k2, v2) :: ps) ++
                    '\n' :: (pad level ++ '}' :: rest))))) := by
            refine parseEntries_ws_congr (f + 1) ?_
            rw [skipWs_pad]
          have hsb : parseStringBody [] ((k.data.flatMap escapeChar ++ ['"']) ++ ':' :: ' ' ::
              (dumpVal (level + 1) v ++ ',' :: '\n' ::
                (dumpEntries level ((k2, v2) :: ps) ++ '\n' :: (pad level ++ '}' :: rest)))) =
              some (k, ':' :: ' ' ::
                (dumpVal (level + 1) v ++ ',' :: '\n' ::
                  (dumpEntries level ((k2, v2) :: ps) ++
                    '\n' :: (pad level ++ '}' :: rest)))) := by
            rw [List.append_assoc, show (['"'] : List Char) ++ ':' :: ' ' ::
                (dumpVal (level + 1) v ++ ',' :: '\n' ::
                  (dumpEntries level ((k2, v2) :: ps) ++
                    '\n' :: (pad level ++ '}' :: rest))) =
                '"' :: ':' :: ' ' ::
                  (dumpVal (level + 1) v ++ ',' :: '\n' ::
                    (dumpEntries level ((k2, v2) :: ps) ++
                      '\n' :: (pad level ++ '}' :: rest))) from rfl]
            exact parseStringBody_quote k _
          have hval : parseVal f (' ' :: (dumpVal (level + 1) v ++ ',' :: '\n' ::
                (dumpEntries level ((k2, v2) :: ps) ++ '\n' :: (pad level ++ '}' :: rest)))) =
              some (v, ',' :: '\n' ::
                (dumpEntries level ((k2, v2) :: ps) ++
                  '\n' :: (pad level ++ '}' :: rest))) := by
            rw [parseVal_ws_congr f (skipWs_ws_cons (by decide) _)]
            exact (ih f (by omega)).1 v (level + 1) _ hlenv (okAfter_comma _)
          have hrec : parseEntries f ('\n' ::
                (dumpEntries level ((k2, v2) :: ps) ++ '\n' :: (pad level ++ '}' :: rest))) =
              some ((k2, v2) :: ps, rest) := by
            rw [parseEntries_ws_congr f (skipWs_ws_cons (by decide) _)]
            exact (ih f (by omega)).2 k2 v2 ps level rest hlenE2
          rw [hcongr, parseEntries_step f '"' _ (by decide)]
          simp +decide only [if_pos, hsb, skipWs_not_ws (show isWsChar ':' = false from
            by decide), hval, skipWs_not_ws (show isWsChar ',' = false from by decide),
            hrec, if_neg]

/-- Parsing the serialised document recovers the value exactly. -/
theorem parseJson_dir_tree_to_json (v : JVal) :
    parseJson (dir_tree_to_json v) = some v := by
  have h := (parse_dump_main ((dumpVal 0 v).length + 1)).1 v 0 [] (by omega) rfl
  rw [List.append_nil] at h
  rw [parseJson, dir_tree_to_json]
  rw [show (String.mk (dumpVal 0 v)).data = dumpVal 0 v from rfl]
  rw [h]
  rfl

/-! ## Claim C7: the serialised tree round-trips -/

/-- C7: for every tree `get_dir_tree` returns, parsing the text produced by
`dir_tree_to_json` with the order-preserving parser `parseJson` reconstructs
exactly the serialised dict value: same keys in the same order at every
level, integers still integers, floats still floats, strings still strings —
no information loss. -/
theorem c7_serialise_roundtrip (fmtTime : Int → String) (name pathStr : String) (e : FSEntry)
    (depth : Int) (hr : Bool) (t : Node) (logs : List LogMsg)
    (_h : get_dir_tree fmtTime name pathStr e depth hr = (.ok t, logs)) :
    parseJson (dir_tree_to_json (Node.toVal t)) = some (Node.toVal t) :=
  parseJson_dir_tree_to_json (Node.toVal t)

/-- C7 (witness): `c7_serialise_roundtrip` on the tree scanned from a
concrete filesystem with a file and an empty subdirectory. -/
theorem c7_serialise_roundtrip_witness :
    parseJson (dir_tree_to_json (Node.toVal
      (.dirNode [("a.txt", .fileNode [("size", .jint 5), ("modified_time", .jfloat 100)]),
                 ("b", .dirNode [])]))) =
    some (Node.toVal
      (.dirNode [("a.txt", .fileNode [("size", .jint 5), ("modified_time", .jfloat 100)]),
                 ("b", .dirNode [])])) := by
  refine c7_serialise_roundtrip (fun _ => "") "r" "/r"
    (.dir true (.ok [("b", .dir true (.ok [])), ("a.txt", .file true (.ok ⟨5, 100⟩))]))
    (-1) false _ [] ?_
  rw [get_dir_tree_dir_ok _ _ _ _ _ _ (by norm_num) (by norm_num)]
  have hsort : sortEntries [("b", FSEntry.dir true (.ok [])),
      ("a.txt", FSEntry.file true (.ok ⟨5, 100⟩))] =
      [("a.txt", FSEntry.file true (.ok ⟨5, 100⟩)), ("b", FSEntry.dir true (.ok []))] := by
    simp +decide [sortEntries, insertSorted, entryLe, lowerKey, charListLe]
  rw [hsort, buildChildren_cons_file, buildChildren_cons_dir,
    show (if (-1 : Int) > 0 then (-1 : Int) - 1 else -1) = -1 from by norm_num,
    get_dir_tree_dir_ok _ _ _ _ _ _ (by norm_num) (by norm_num)]
  rw [show sortEntries [] = [] from rfl]
  simp [buildChildren_nil, get_file_info]

/-! ## Claim C4: children are unique, sorted, and serialised in order -/

theorem buildChildren_sortedOk (fmtTime : Int → String) (hr : Bool) :
    ∀ (l : List (String × FSEntry)) (pathStr : String) (depth : Int)
      (res : List (String × Node)) (logs : List LogMsg),
    (∀ p ∈ l, p.2.namesNodup = true) →
    (∀ p ∈ l, ∀ (name cpath : String) (d : Int) (t2 : Node) (logs2 : List LogMsg),
        p.2.namesNodup = true →
        get_dir_tree fmtTime name cpath p.2 d hr = (.ok t2, logs2) →
        Node.sortedOk t2 = true) →
    buildChildren fmtTime pathStr depth hr l = (.ok res, logs) →
    ∀ q ∈ res, q.2.sortedOk = true := by
  intro l
  induction l with
  | nil =>
    intro pathStr depth res logs _ _ hbc
    rw [buildChildren_nil] at hbc
    cases hbc
    simp
  | cons hd rest ih =>
    intro pathStr depth res logs hnodup hrec hbc
    obtain ⟨cname, ce⟩ := hd
    have hnodup_rest := fun p hp => hnodup p (List.mem_cons_of_mem _ hp)
    have hrec_rest := fun p hp => hrec p (List.mem_cons_of_mem _ hp)
    cases ce with
    | dir dEx dListing =>
      rw [buildChildren_cons_dir] at hbc
      rcases hC : get_dir_tree fmtTime cname (pathStr ++ "/" ++ cname) (.dir dEx dListing)
          (if depth > 0 then depth - 1 else -1) hr with ⟨resC, logsC⟩
      rw [hC] at hbc
      cases resC with
      | error err => simp at hbc
      | ok sub =>
        rcases hR : buildChildren fmtTime pathStr depth hr rest with ⟨resR, logsR⟩
        rw [hR] at hbc
        cases resR with
        | error err => simp at hbc
        | ok chR =>
          simp only [Prod.mk.injEq, Except.ok.injEq] at hbc
          obtain ⟨rfl, rfl⟩ := hbc
          intro q hq
          rcases List.mem_cons.mp hq with rfl | hq2
          · exact hrec (cname, .dir dEx dListing) (List.mem_cons_self _ _) cname
              (pathStr ++ "/" ++ cname) (if depth > 0 then depth - 1 else -1) sub logsC
              (hnodup (cname, .dir dEx dListing) (List.mem_cons_self _ _)) hC
          · exact ih pathStr depth chR logsR hnodup_rest hrec_rest hR q hq2
    | file fEx fStat =>
      rw [buildChildren_cons_file] at hbc
      rcases hR : buildChildren fmtTime pathStr depth hr rest with ⟨resR, logsR⟩
      rw [hR] at hbc
      cases resR with
      | error err => simp at hbc
      | ok chR =>
        simp only [Prod.mk.injEq, Except.ok.injEq] at hbc
        obtain ⟨rfl, rfl⟩ := hbc
        intro q hq
        rcases List.mem_cons.mp hq with rfl | hq2
        · simp [Node.sortedOk]
        · exact ih pathStr depth chR logsR hnodup_rest hrec_rest hR q hq2
    | special ex =>
      rw [buildChildren_cons_special] at hbc
      rcases hR : buildChildren fmtTime pathStr depth hr rest with ⟨resR, logsR⟩
      rw [hR] at hbc
      cases resR with
      | error err => simp at hbc
      | ok chR =>
        simp only [Prod.mk.injEq, Except.ok.injEq] at hbc
        obtain ⟨rfl, rfl⟩ := hbc
        exact ih pathStr depth chR logsR hnodup_rest hrec_rest hR

/-- C4: in every `dirNode` of a tree returned by `get_dir_tree` (given the
filesystem guarantee that listing names are unique), the child names are
pairwise distinct and in ascending case-insensitive lexicographic order,
recursively; and the serialised output preserves exactly this insertion
order, witnessed by the order-preserving parse recovering the same ordered
dict. -/
theorem c4_children_sorted_unique (fmtTime : Int → String) (hr : Bool) (e : FSEntry) :
    ∀ (name pathStr : String) (depth : Int) (t : Node) (logs : List LogMsg),
    FSEntry.namesNodup e = true →
    get_dir_tree fmtTime name pathStr e depth hr = (.ok t, logs) →
    Node.sortedOk t = true ∧
      parseJson (dir_tree_to_json (Node.toVal t)) = some (Node.toVal t) := by
  induction e using FSEntry.inductionOn with
  | hfile ex st =>
    intro name pathStr depth t logs _ h
    refine ⟨?_, parseJson_dir_tree_to_json _⟩
    cases ex with
    | false =>
      rw [get_dir_tree_gone fmtTime name pathStr (.file false st) depth hr ?hd rfl] at h
      · simp at h
      · by_contra hlt
        rw [get_dir_tree_bad_depth fmtTime name pathStr _ depth hr (by omega)] at h
        simp at h
    | true =>
      by_cases hd : depth < -1
      · rw [get_dir_tree_bad_depth fmtTime name pathStr _ depth hr hd] at h
        simp at h
      · rw [get_dir_tree_root_file fmtTime name pathStr st depth hr (by omega)] at h
        simp only [Prod.mk.injEq, Except.ok.injEq] at h
        obtain ⟨rfl, rfl⟩ := h
        simp [Node.sortedOk, childrenSortedOk, pairwiseLeKeys, nodupKeys]
  | hspec ex =>
    intro name pathStr depth t logs _ h
    refine ⟨?_, parseJson_dir_tree_to_json _⟩
    by_cases hd : depth < -1
    · rw [get_dir_tree_bad_depth fmtTime name pathStr _ depth hr hd] at h
      simp at h
    · cases ex with
      | false =>
        rw [get_dir_tree_gone fmtTime name pathStr (.special false) depth hr (by omega) rfl] at h
        simp at h
      | true =>
        by_cases h0 : depth = 0
        · subst h0
          rw [get_dir_tree_special_zero] at h
          simp only [Prod.mk.injEq, Except.ok.injEq] at h
          obtain ⟨rfl, rfl⟩ := h
          simp [Node.sortedOk, childrenSortedOk, pairwiseLeKeys, nodupKeys]
        · rw [get_dir_tree_special fmtTime name pathStr depth hr (by omega) h0] at h
          simp at h
  | hdirErr ex k =>
    intro name pathStr depth t logs _ h
    refine ⟨?_, parseJson_dir_tree_to_json _⟩
    by_cases hd : depth < -1
    · rw [get_dir_tree_bad_depth fmtTime name pathStr _ depth hr hd] at h
      simp at h
    · cases ex with
      | false =>
        rw [get_dir_tree_gone fmtTime name pathStr (.dir false (.error k)) depth hr
          (by omega) rfl] at h
        simp at h
      | true =>
        by_cases h0 : depth = 0
        · subst h0
          rw [get_dir_tree_dir_zero] at h
          simp only [Prod.mk.injEq, Except.ok.injEq] at h
          obtain ⟨rfl, rfl⟩ := h
          simp [Node.sortedOk, childrenSortedOk, pairwiseLeKeys, nodupKeys]
        · cases k with
          | permission =>
            rw [get_dir_tree_dir_perm fmtTime name pathStr depth hr (by omega) h0] at h
            simp only [Prod.mk.injEq, Except.ok.injEq] at h
            obtain ⟨rfl, rfl⟩ := h
            simp [Node.sortedOk, childrenSortedOk, pairwiseLeKeys, nodupKeys]
          | other =>
            rw [get_dir_tree_dir_oserr fmtTime name pathStr depth hr (by omega) h0] at h
            simp at h
  | hdirOk ex l ihl =>
    intro name pathStr depth t logs hnodup h
    refine ⟨?_, parseJson_dir_tree_to_json _⟩
    by_cases hd : depth < -1
    · rw [get_dir_tree_bad_depth fmtTime name pathStr _ depth hr hd] at h
      simp at h
    · cases ex with
      | false =>
        rw [get_dir_tree_gone fmtTime name pathStr (.dir false (.ok l)) depth hr
          (by omega) rfl] at h
        simp at h
      | true =>
        by_cases h0 : depth = 0
        · subst h0
          rw [get_dir_tree_dir_zero] at h
          simp only [Prod.mk.injEq, Except.ok.injEq] at h
          obtain ⟨rfl, rfl⟩ := h
          simp [Node.sortedOk, childrenSortedOk, pairwiseLeKeys, nodupKeys]
        · have hnames : nodupKeys (l.map Prod.fst) = true ∧ namesNodupList l = true := by
            simpa [FSEntry.namesNodup] using hnodup
          rw [get_dir_tree_dir_ok fmtTime name pathStr l depth hr (by omega) h0] at h
          rcases hB : buildChildren fmtTime pathStr depth hr (sortEntries l) with ⟨resB, logsB⟩
          rw [hB] at h
          cases resB with
          | error err => simp at h
          | ok ch =>
            simp only [Prod.mk.injEq, Except.ok.injEq] at h
            obtain ⟨rfl, rfl⟩ := h
            have hkeys := buildChildren_keys fmtTime hr (sortEntries l) pathStr depth ch logsB hB
            rw [Node.sortedOk]
            refine (by simp : ∀ a b c : Bool, a = true → b = true → c = true →
              ((a && b && c) = true)) _ _ _ ?_ ?_ ?_
            · rw [hkeys, pairwiseLeKeys_iff, List.pairwise_map]
              exact List.Pairwise.filter _ (sortEntries_pairwise l)
            · rw [hkeys, nodupKeys_iff]
              have hl : (l.map Prod.fst).Nodup := nodupKeys_iff.mp hnames.1
              have hsorted : ((sortEntries l).map Prod.fst).Nodup :=
                (((sortEntries_perm l).map Prod.fst).symm).nodup hl
              exact (((List.filter_sublist (sortEntries l)).map Prod.fst)).nodup hsorted
            · rw [childrenSortedOk_iff]
              refine buildChildren_sortedOk fmtTime hr (sortEntries l) pathStr depth ch logsB
                ?_ ?_ hB
              · intro p hp
                exact namesNodupList_iff.mp hnames.2 p (mem_sortEntries.mp hp)
              · intro p hp name2 cpath d t2 logs2 hpn hp2
                exact (ihl p (mem_sortEntries.mp hp) name2 cpath d t2 logs2 hpn hp2).1

/-- C4 (witness): `c4_children_sorted_unique` on a concrete two-entry
directory: the result's invariant and its serialised round trip, evaluated. -/
theorem c4_children_sorted_unique_witness :
    Node.sortedOk (.dirNode [("a.txt", .fileNode [("size", .jint 5),
        ("modified_time", .jfloat 100)]), ("b", .dirNode [])]) = true ∧
    parseJson (dir_tree_to_json (Node.toVal
      (.dirNode [("a.txt", .fileNode [("size", .jint 5), ("modified_time", .jfloat 100)]),
                 ("b", .dirNode [])]))) =
    some (Node.toVal
      (.dirNode [("a.txt", .fileNode [("size", .jint 5), ("modified_time", .jfloat 100)]),
                 ("b", .dirNode [])])) := by
  refine c4_children_sorted_unique (fun _ => "") false
    (.dir true (.ok [("b", .dir true (.ok [])), ("a.txt", .file true (.ok ⟨5, 100⟩))]))
    "r" "/r" (-1) _ [] ?_ ?_
  · simp +decide [FSEntry.namesNodup, namesNodupList, nodupKeys]
  · rw [get_dir_tree_dir_ok _ _ _ _ _ _ (by norm_num) (by norm_num)]
    have hsort : sortEntries [("b", FSEntry.dir true (.ok [])),
        ("a.txt", FSEntry.file true (.ok ⟨5, 100⟩))] =
        [("a.txt", FSEntry.file true (.ok ⟨5, 100⟩)), ("b", FSEntry.dir true (.ok []))] := by
      simp +decide [sortEntries, insertSorted, entryLe, lowerKey, charListLe]
    rw [hsort, buildChildren_cons_file, buildChildren_cons_dir,
      show (if (-1 : Int) > 0 then (-1 : Int) - 1 else -1) = -1 from by norm_num,
      get_dir_tree_dir_ok _ _ _ _ _ _ (by norm_num) (by norm_num)]
    rw [show sortEntries [] = [] from rfl]
    simp [buildChildren_nil, get_file_info]
